import Mathlib

/-!
Verification of the nomonic BIP39 sequence detector.

This file gives a shallow embedding of the detector core of the nomonic
repository: the TypeScript functions `stripToken`, `ANNOTATION_TOKENS`,
`analyzeLine` and the two-pass `detectBip39Sequences` (single-line pass and
cross-line pass), as embedded in `setup.sh`, together with the bash
implementation's `strip_token` from the bash pre-commit guard (which, unlike
the TypeScript classifier, disqualifies tokens whose trimmed-off boundary
material contains a digit).

Embedding conventions:
* JavaScript strings are modelled as `List Char`; lines and tokens likewise.
* `String.prototype.toLowerCase` is modelled as ASCII lowercasing
  (`asciiLower`); all inputs of interest are ASCII.
* The regex `\s` (used by `split(/\s+/)` and `trim()`) is modelled by the
  ASCII whitespace class `isWs` (space, tab, newline, carriage return,
  vertical tab, form feed); exotic Unicode whitespace is not modelled.
* Numbers are modelled as `Int` where the source compares a counter against
  the caller-supplied `threshold` (which JavaScript does not constrain to be
  positive), and as `Nat` for list indices.
* `Array.prototype.slice(-n)` is modelled by `sliceNeg` including its
  behaviour at `n = 0` (where JavaScript returns the whole array).
* The cross-line accumulator's `crossLineStart` sentinel `-1` is kept as an
  `Int`; the out-of-bounds read `lines[-1]` (JavaScript `undefined`, only
  reachable when `threshold <= 0`) is modelled as the empty string by
  `lineAt`.
-/

/-- ASCII lowercase letter test, the regex `[a-z]` of `stripToken`. -/
def isLowerAlpha (c : Char) : Bool :=
  'a' ≤ c && c ≤ 'z'

/-- ASCII letter test, the bash pattern `[a-zA-Z]` of `strip_token`. -/
def isAlphaChar (c : Char) : Bool :=
  isLowerAlpha c || ('A' ≤ c && c ≤ 'Z')

/-- ASCII digit test, the pattern `[0-9]` of the bash `strip_token`. -/
def isDigitChar (c : Char) : Bool :=
  '0' ≤ c && c ≤ '9'

/-- The whitespace class used by `split(/\s+/)` and `trim()` (ASCII part). -/
def isWs (c : Char) : Bool :=
  c == ' ' || c == '\t' || c == '\n' || c == '\r' ||
    c == Char.ofNat 11 || c == Char.ofNat 12

/-- ASCII lowercasing of one character, modelling `toLowerCase`. -/
def asciiLower (c : Char) : Char :=
  if 'A' ≤ c && c ≤ 'Z' then Char.ofNat (c.toNat + 32) else c

/-- Accumulator worker for `splitWs`: `cur` is the token in progress. -/
def splitWsGo : List Char → List Char → List (List Char)
  | [], cur => if cur = [] then [] else [cur]
  | c :: rest, cur =>
    if isWs c then
      if cur = [] then splitWsGo rest [] else cur :: splitWsGo rest []
    else splitWsGo rest (cur ++ [c])

/-- Model of `line.split(/\s+/).filter(Boolean)`: the maximal runs of
non-whitespace characters, in order. -/
def splitWs (l : List Char) : List (List Char) :=
  splitWsGo l []

/-- Model of `content.split('\n')`: always one more part than there are newlines. -/
def splitLines : List Char → List (List Char)
  | [] => [[]]
  | c :: rest =>
    if c = '\n' then [] :: splitLines rest
    else
      match splitLines rest with
      | [] => [[c]]
      | l :: ls => (c :: l) :: ls

/-- The tokens the detector classifies: the line is split on whitespace and
each token is lowercased (`.map((t) => t.toLowerCase())`). -/
def tokensOfLine (line : List Char) : List (List Char) :=
  (splitWs line).map (List.map asciiLower)

/-- Result of the TypeScript `stripToken`: `'skip'`, `null` (here `broken`),
or the stripped core word. -/
inductive StripResult where
  | skip : StripResult
  | broken : StripResult
  | word : List Char → StripResult
deriving DecidableEq, Repr

/-- The TypeScript `stripToken`: strip leading and trailing non-`[a-z]`
characters; `skip` when no `[a-z]` at all, `broken` (source: `null`) when the
remaining core is not purely `[a-z]+`.  The input is already lowercased. -/
def stripToken (t : List Char) : StripResult :=
  let rest := t.dropWhile (fun c => !isLowerAlpha c)
  if rest = [] then .skip
  else
    let core := (rest.reverse.dropWhile (fun c => !isLowerAlpha c)).reverse
    if core.all isLowerAlpha then .word core else .broken

/-- The source's `ANNOTATION_TOKENS` set: label words treated as transparent
in both passes. -/
def annotTokens : List (List Char) :=
  [("word").data, ("words").data, ("mnemonic").data, ("seed").data,
    ("phrase").data, ("key").data, ("backup").data, ("recovery").data,
    ("secret").data, ("passphrase").data]

def BIP39_RAW_0 : List String := ["abandon", "ability", "able", "about", "above", "absent", "absorb", "abstract", "absurd", "abuse"
  , "access", "accident", "account", "accuse", "achieve", "acid", "acoustic", "acquire", "across", "act"
  , "action", "actor", "actress", "actual", "adapt", "add", "addict", "address", "adjust", "admit"
  , "adult", "advance", "advice", "aerobic", "affair", "afford", "afraid", "again", "age", "agent"
  , "agree", "ahead", "aim", "air", "airport", "aisle", "alarm", "album", "alcohol", "alert"
  , "alien", "all", "alley", "allow", "almost", "alone", "alpha", "already", "also", "alter"
  , "always", "amateur", "amazing", "among", "amount", "amused", "analyst", "anchor", "ancient", "anger"
  , "angle", "angry", "animal", "ankle", "announce", "annual", "another", "answer", "antenna", "antique"
  , "anxiety", "any", "apart", "apology", "appear", "apple", "approve", "april", "arch", "arctic"
  , "area", "arena", "argue", "arm", "armed", "armor", "army", "around", "arrange", "arrest"
  , "arrive", "arrow", "art", "artefact", "artist", "artwork", "ask", "aspect", "assault", "asset"
  , "assist", "assume", "asthma", "athlete", "atom", "attack", "attend", "attitude", "attract", "auction"
  , "audit", "august", "aunt", "author", "auto", "autumn", "average", "avocado", "avoid", "awake"
  , "aware", "away", "awesome", "awful", "awkward", "axis", "baby", "bachelor", "bacon", "badge"
  , "bag", "balance", "balcony", "ball", "bamboo", "banana", "banner", "bar", "barely", "bargain"
  , "barrel", "base", "basic", "basket", "battle", "beach", "bean", "beauty", "because", "become"
  , "beef", "before", "begin", "behave", "behind", "believe", "below", "belt", "bench", "benefit"
  , "best", "betray", "better", "between", "beyond", "bicycle", "bid", "bike", "bind", "biology"
  , "bird", "birth", "bitter", "black", "blade", "blame", "blanket", "blast", "bleak", "bless"
  , "blind", "blood", "blossom", "blouse", "blue", "blur", "blush", "board", "boat", "body"
  , "boil", "bomb", "bone", "bonus", "book", "boost", "border", "boring", "borrow", "boss"
  , "bottom", "bounce", "box", "boy", "bracket", "brain", "brand", "brass", "brave", "bread"
  , "breeze", "brick", "bridge", "brief", "bright", "bring", "brisk", "broccoli", "broken", "bronze"
  , "broom", "brother", "brown", "brush", "bubble", "buddy", "budget", "buffalo", "build", "bulb"
  , "bulk", "bullet", "bundle", "bunker", "burden", "burger", "burst", "bus", "business", "busy"
  , "butter", "buyer", "buzz", "cabbage", "cabin", "cable"]

def BIP39_RAW_1 : List String := ["cactus", "cage", "cake", "call", "calm", "camera", "camp", "can", "canal", "cancel"
  , "candy", "cannon", "canoe", "canvas", "canyon", "capable", "capital", "captain", "car", "carbon"
  , "card", "cargo", "carpet", "carry", "cart", "case", "cash", "casino", "castle", "casual"
  , "cat", "catalog", "catch", "category", "cattle", "caught", "cause", "caution", "cave", "ceiling"
  , "celery", "cement", "census", "century", "cereal", "certain", "chair", "chalk", "champion", "change"
  , "chaos", "chapter", "charge", "chase", "chat", "cheap", "check", "cheese", "chef", "cherry"
  , "chest", "chicken", "chief", "child", "chimney", "choice", "choose", "chronic", "chuckle", "chunk"
  , "churn", "cigar", "cinnamon", "circle", "citizen", "city", "civil", "claim", "clap", "clarify"
  , "claw", "clay", "clean", "clerk", "clever", "click", "client", "cliff", "climb", "clinic"
  , "clip", "clock", "clog", "close", "cloth", "cloud", "clown", "club", "clump", "cluster"
  , "clutch", "coach", "coast", "coconut", "code", "coffee", "coil", "coin", "collect", "color"
  , "column", "combine", "come", "comfort", "comic", "common", "company", "concert", "conduct", "confirm"
  , "congress", "connect", "consider", "control", "convince", "cook", "cool", "copper", "copy", "coral"
  , "core", "corn", "correct", "cost", "cotton", "couch", "country", "couple", "course", "cousin"
  , "cover", "coyote", "crack", "cradle", "craft", "cram", "crane", "crash", "crater", "crawl"
  , "crazy", "cream", "credit", "creek", "crew", "cricket", "crime", "crisp", "critic", "crop"
  , "cross", "crouch", "crowd", "crucial", "cruel", "cruise", "crumble", "crunch", "crush", "cry"
  , "crystal", "cube", "culture", "cup", "cupboard", "curious", "current", "curtain", "curve", "cushion"
  , "custom", "cute", "cycle", "dad", "damage", "damp", "dance", "danger", "daring", "dash"
  , "daughter", "dawn", "day", "deal", "debate", "debris", "decade", "december", "decide", "decline"
  , "decorate", "decrease", "deer", "defense", "define", "defy", "degree", "delay", "deliver", "demand"
  , "demise", "denial", "dentist", "deny", "depart", "depend", "deposit", "depth", "deputy", "derive"
  , "describe", "desert", "design", "desk", "despair", "destroy", "detail", "detect", "develop", "device"
  , "devote", "diagram", "dial", "diamond", "diary", "dice", "diesel", "diet", "differ", "digital"
  , "dignity", "dilemma", "dinner", "dinosaur", "direct", "dirt", "disagree", "discover", "disease", "dish"
  , "dismiss", "disorder", "display", "distance", "divert", "divide"]

def BIP39_RAW_2 : List String := ["divorce", "dizzy", "doctor", "document", "dog", "doll", "dolphin", "domain", "donate", "donkey"
  , "donor", "door", "dose", "double", "dove", "draft", "dragon", "drama", "drastic", "draw"
  , "dream", "dress", "drift", "drill", "drink", "drip", "drive", "drop", "drum", "dry"
  , "duck", "dumb", "dune", "during", "dust", "dutch", "duty", "dwarf", "dynamic", "eager"
  , "eagle", "early", "earn", "earth", "easily", "east", "easy", "echo", "ecology", "economy"
  , "edge", "edit", "educate", "effort", "egg", "eight", "either", "elbow", "elder", "electric"
  , "elegant", "element", "elephant", "elevator", "elite", "else", "embark", "embody", "embrace", "emerge"
  , "emotion", "employ", "empower", "empty", "enable", "enact", "end", "endless", "endorse", "enemy"
  , "energy", "enforce", "engage", "engine", "enhance", "enjoy", "enlist", "enough", "enrich", "enroll"
  , "ensure", "enter", "entire", "entry", "envelope", "episode", "equal", "equip", "era", "erase"
  , "erode", "erosion", "error", "erupt", "escape", "essay", "essence", "estate", "eternal", "ethics"
  , "evidence", "evil", "evoke", "evolve", "exact", "example", "excess", "exchange", "excite", "exclude"
  , "excuse", "execute", "exercise", "exhaust", "exhibit", "exile", "exist", "exit", "exotic", "expand"
  , "expect", "expire", "explain", "expose", "express", "extend", "extra", "eye", "eyebrow", "fabric"
  , "face", "faculty", "fade", "faint", "faith", "fall", "false", "fame", "family", "famous"
  , "fan", "fancy", "fantasy", "farm", "fashion", "fat", "fatal", "father", "fatigue", "fault"
  , "favorite", "feature", "february", "federal", "fee", "feed", "feel", "female", "fence", "festival"
  , "fetch", "fever", "few", "fiber", "fiction", "field", "figure", "file", "film", "filter"
  , "final", "find", "fine", "finger", "finish", "fire", "firm", "first", "fiscal", "fish"
  , "fit", "fitness", "fix", "flag", "flame", "flash", "flat", "flavor", "flee", "flight"
  , "flip", "float", "flock", "floor", "flower", "fluid", "flush", "fly", "foam", "focus"
  , "fog", "foil", "fold", "follow", "food", "foot", "force", "forest", "forget", "fork"
  , "fortune", "forum", "forward", "fossil", "foster", "found", "fox", "fragile", "frame", "frequent"
  , "fresh", "friend", "fringe", "frog", "front", "frost", "frown", "frozen", "fruit", "fuel"
  , "fun", "funny", "furnace", "fury", "future", "gadget", "gain", "galaxy", "gallery", "game"
  , "gap", "garage", "garbage", "garden", "garlic", "garment"]

def BIP39_RAW_3 : List String := ["gas", "gasp", "gate", "gather", "gauge", "gaze", "general", "genius", "genre", "gentle"
  , "genuine", "gesture", "ghost", "giant", "gift", "giggle", "ginger", "giraffe", "girl", "give"
  , "glad", "glance", "glare", "glass", "glide", "glimpse", "globe", "gloom", "glory", "glove"
  , "glow", "glue", "goat", "goddess", "gold", "good", "goose", "gorilla", "gospel", "gossip"
  , "govern", "gown", "grab", "grace", "grain", "grant", "grape", "grass", "gravity", "great"
  , "green", "grid", "grief", "grit", "grocery", "group", "grow", "grunt", "guard", "guess"
  , "guide", "guilt", "guitar", "gun", "gym", "habit", "hair", "half", "hammer", "hamster"
  , "hand", "happy", "harbor", "hard", "harsh", "harvest", "hat", "have", "hawk", "hazard"
  , "head", "health", "heart", "heavy", "hedgehog", "height", "hello", "helmet", "help", "hen"
  , "hero", "hidden", "high", "hill", "hint", "hip", "hire", "history", "hobby", "hockey"
  , "hold", "hole", "holiday", "hollow", "home", "honey", "hood", "hope", "horn", "horror"
  , "horse", "hospital", "host", "hotel", "hour", "hover", "hub", "huge", "human", "humble"
  , "humor", "hundred", "hungry", "hunt", "hurdle", "hurry", "hurt", "husband", "hybrid", "ice"
  , "icon", "idea", "identify", "idle", "ignore", "ill", "illegal", "illness", "image", "imitate"
  , "immense", "immune", "impact", "impose", "improve", "impulse", "inch", "include", "income", "increase"
  , "index", "indicate", "indoor", "industry", "infant", "inflict", "inform", "inhale", "inherit", "initial"
  , "inject", "injury", "inmate", "inner", "innocent", "input", "inquiry", "insane", "insect", "inside"
  , "inspire", "install", "intact", "interest", "into", "invest", "invite", "involve", "iron", "island"
  , "isolate", "issue", "item", "ivory", "jacket", "jaguar", "jar", "jazz", "jealous", "jeans"
  , "jelly", "jewel", "job", "join", "joke", "journey", "joy", "judge", "juice", "jump"
  , "jungle", "junior", "junk", "just", "kangaroo", "keen", "keep", "ketchup", "key", "kick"
  , "kid", "kidney", "kind", "kingdom", "kiss", "kit", "kitchen", "kite", "kitten", "kiwi"
  , "knee", "knife", "knock", "know", "lab", "label", "labor", "ladder", "lady", "lake"
  , "lamp", "language", "laptop", "large", "later", "latin", "laugh", "laundry", "lava", "law"
  , "lawn", "lawsuit", "layer", "lazy", "leader", "leaf", "learn", "leave", "lecture", "left"
  , "leg", "legal", "legend", "leisure", "lemon", "lend"]

def BIP39_RAW_4 : List String := ["length", "lens", "leopard", "lesson", "letter", "level", "liar", "liberty", "library", "license"
  , "life", "lift", "light", "like", "limb", "limit", "link", "lion", "liquid", "list"
  , "little", "live", "lizard", "load", "loan", "lobster", "local", "lock", "logic", "lonely"
  , "long", "loop", "lottery", "loud", "lounge", "love", "loyal", "lucky", "luggage", "lumber"
  , "lunar", "lunch", "luxury", "lyrics", "machine", "mad", "magic", "magnet", "maid", "mail"
  , "main", "major", "make", "mammal", "man", "manage", "mandate", "mango", "mansion", "manual"
  , "maple", "marble", "march", "margin", "marine", "market", "marriage", "mask", "mass", "master"
  , "match", "material", "math", "matrix", "matter", "maximum", "maze", "meadow", "mean", "measure"
  , "meat", "mechanic", "medal", "media", "melody", "melt", "member", "memory", "mention", "menu"
  , "mercy", "merge", "merit", "merry", "mesh", "message", "metal", "method", "middle", "midnight"
  , "milk", "million", "mimic", "mind", "minimum", "minor", "minute", "miracle", "mirror", "misery"
  , "miss", "mistake", "mix", "mixed", "mixture", "mobile", "model", "modify", "mom", "moment"
  , "monitor", "monkey", "monster", "month", "moon", "moral", "more", "morning", "mosquito", "mother"
  , "motion", "motor", "mountain", "mouse", "move", "movie", "much", "muffin", "mule", "multiply"
  , "muscle", "museum", "mushroom", "music", "must", "mutual", "myself", "mystery", "myth", "naive"
  , "name", "napkin", "narrow", "nasty", "nation", "nature", "near", "neck", "need", "negative"
  , "neglect", "neither", "nephew", "nerve", "nest", "net", "network", "neutral", "never", "news"
  , "next", "nice", "night", "noble", "noise", "nominee", "noodle", "normal", "north", "nose"
  , "notable", "note", "nothing", "notice", "novel", "now", "nuclear", "number", "nurse", "nut"
  , "oak", "obey", "object", "oblige", "obscure", "observe", "obtain", "obvious", "occur", "ocean"
  , "october", "odor", "off", "offer", "office", "often", "oil", "okay", "old", "olive"
  , "olympic", "omit", "once", "one", "onion", "online", "only", "open", "opera", "opinion"
  , "oppose", "option", "orange", "orbit", "orchard", "order", "ordinary", "organ", "orient", "original"
  , "orphan", "ostrich", "other", "outdoor", "outer", "output", "outside", "oval", "oven", "over"
  , "own", "owner", "oxygen", "oyster", "ozone", "pact", "paddle", "page", "pair", "palace"
  , "palm", "panda", "panel", "panic", "panther", "paper"]

def BIP39_RAW_5 : List String := ["parade", "parent", "park", "parrot", "party", "pass", "patch", "path", "patient", "patrol"
  , "pattern", "pause", "pave", "payment", "peace", "peanut", "pear", "peasant", "pelican", "pen"
  , "penalty", "pencil", "people", "pepper", "perfect", "permit", "person", "pet", "phone", "photo"
  , "phrase", "physical", "piano", "picnic", "picture", "piece", "pig", "pigeon", "pill", "pilot"
  , "pink", "pioneer", "pipe", "pistol", "pitch", "pizza", "place", "planet", "plastic", "plate"
  , "play", "please", "pledge", "pluck", "plug", "plunge", "poem", "poet", "point", "polar"
  , "pole", "police", "pond", "pony", "pool", "popular", "portion", "position", "possible", "post"
  , "potato", "pottery", "poverty", "powder", "power", "practice", "praise", "predict", "prefer", "prepare"
  , "present", "pretty", "prevent", "price", "pride", "primary", "print", "priority", "prison", "private"
  , "prize", "problem", "process", "produce", "profit", "program", "project", "promote", "proof", "property"
  , "prosper", "protect", "proud", "provide", "public", "pudding", "pull", "pulp", "pulse", "pumpkin"
  , "punch", "pupil", "puppy", "purchase", "purity", "purpose", "purse", "push", "put", "puzzle"
  , "pyramid", "quality", "quantum", "quarter", "question", "quick", "quit", "quiz", "quote", "rabbit"
  , "raccoon", "race", "rack", "radar", "radio", "rail", "rain", "raise", "rally", "ramp"
  , "ranch", "random", "range", "rapid", "rare", "rate", "rather", "raven", "raw", "razor"
  , "ready", "real", "reason", "rebel", "rebuild", "recall", "receive", "recipe", "record", "recycle"
  , "reduce", "reflect", "reform", "refuse", "region", "regret", "regular", "reject", "relax", "release"
  , "relief", "rely", "remain", "remember", "remind", "remove", "render", "renew", "rent", "reopen"
  , "repair", "repeat", "replace", "report", "require", "rescue", "resemble", "resist", "resource", "response"
  , "result", "retire", "retreat", "return", "reunion", "reveal", "review", "reward", "rhythm", "rib"
  , "ribbon", "rice", "rich", "ride", "ridge", "rifle", "right", "rigid", "ring", "riot"
  , "ripple", "risk", "ritual", "rival", "river", "road", "roast", "robot", "robust", "rocket"
  , "romance", "roof", "rookie", "room", "rose", "rotate", "rough", "round", "route", "royal"
  , "rubber", "rude", "rug", "rule", "run", "runway", "rural", "sad", "saddle", "sadness"
  , "safe", "sail", "salad", "salmon", "salon", "salt", "salute", "same", "sample", "sand"
  , "satisfy", "satoshi", "sauce", "sausage", "save", "say"]

def BIP39_RAW_6 : List String := ["scale", "scan", "scare", "scatter", "scene", "scheme", "school", "science", "scissors", "scorpion"
  , "scout", "scrap", "screen", "script", "scrub", "sea", "search", "season", "seat", "second"
  , "secret", "section", "security", "seed", "seek", "segment", "select", "sell", "seminar", "senior"
  , "sense", "sentence", "series", "service", "session", "settle", "setup", "seven", "shadow", "shaft"
  , "shallow", "share", "shed", "shell", "sheriff", "shield", "shift", "shine", "ship", "shiver"
  , "shock", "shoe", "shoot", "shop", "short", "shoulder", "shove", "shrimp", "shrug", "shuffle"
  , "shy", "sibling", "sick", "side", "siege", "sight", "sign", "silent", "silk", "silly"
  , "silver", "similar", "simple", "since", "sing", "siren", "sister", "situate", "six", "size"
  , "skate", "sketch", "ski", "skill", "skin", "skirt", "skull", "slab", "slam", "sleep"
  , "slender", "slice", "slide", "slight", "slim", "slogan", "slot", "slow", "slush", "small"
  , "smart", "smile", "smoke", "smooth", "snack", "snake", "snap", "sniff", "snow", "soap"
  , "soccer", "social", "sock", "soda", "soft", "solar", "soldier", "solid", "solution", "solve"
  , "someone", "song", "soon", "sorry", "sort", "soul", "sound", "soup", "source", "south"
  , "space", "spare", "spatial", "spawn", "speak", "special", "speed", "spell", "spend", "sphere"
  , "spice", "spider", "spike", "spin", "spirit", "split", "spoil", "sponsor", "spoon", "sport"
  , "spot", "spray", "spread", "spring", "spy", "square", "squeeze", "squirrel", "stable", "stadium"
  , "staff", "stage", "stairs", "stamp", "stand", "start", "state", "stay", "steak", "steel"
  , "stem", "step", "stereo", "stick", "still", "sting", "stock", "stomach", "stone", "stool"
  , "story", "stove", "strategy", "street", "strike", "strong", "struggle", "student", "stuff", "stumble"
  , "style", "subject", "submit", "subway", "success", "such", "sudden", "suffer", "sugar", "suggest"
  , "suit", "summer", "sun", "sunny", "sunset", "super", "supply", "supreme", "sure", "surface"
  , "surge", "surprise", "surround", "survey", "suspect", "sustain", "swallow", "swamp", "swap", "swarm"
  , "swear", "sweet", "swift", "swim", "swing", "switch", "sword", "symbol", "symptom", "syrup"
  , "system", "table", "tackle", "tag", "tail", "talent", "talk", "tank", "tape", "target"
  , "task", "taste", "tattoo", "taxi", "teach", "team", "tell", "ten", "tenant", "tennis"
  , "tent", "term", "test", "text", "thank", "that"]

def BIP39_RAW_7 : List String := ["theme", "then", "theory", "there", "they", "thing", "this", "thought", "three", "thrive"
  , "throw", "thumb", "thunder", "ticket", "tide", "tiger", "tilt", "timber", "time", "tiny"
  , "tip", "tired", "tissue", "title", "toast", "tobacco", "today", "toddler", "toe", "together"
  , "toilet", "token", "tomato", "tomorrow", "tone", "tongue", "tonight", "tool", "tooth", "top"
  , "topic", "topple", "torch", "tornado", "tortoise", "toss", "total", "tourist", "toward", "tower"
  , "town", "toy", "track", "trade", "traffic", "tragic", "train", "transfer", "trap", "trash"
  , "travel", "tray", "treat", "tree", "trend", "trial", "tribe", "trick", "trigger", "trim"
  , "trip", "trophy", "trouble", "truck", "true", "truly", "trumpet", "trust", "truth", "try"
  , "tube", "tuition", "tumble", "tuna", "tunnel", "turkey", "turn", "turtle", "twelve", "twenty"
  , "twice", "twin", "twist", "two", "type", "typical", "ugly", "umbrella", "unable", "unaware"
  , "uncle", "uncover", "under", "undo", "unfair", "unfold", "unhappy", "uniform", "unique", "unit"
  , "universe", "unknown", "unlock", "until", "unusual", "unveil", "update", "upgrade", "uphold", "upon"
  , "upper", "upset", "urban", "urge", "usage", "use", "used", "useful", "useless", "usual"
  , "utility", "vacant", "vacuum", "vague", "valid", "valley", "valve", "van", "vanish", "vapor"
  , "various", "vast", "vault", "vehicle", "velvet", "vendor", "venture", "venue", "verb", "verify"
  , "version", "very", "vessel", "veteran", "viable", "vibrant", "vicious", "victory", "video", "view"
  , "village", "vintage", "violin", "virtual", "virus", "visa", "visit", "visual", "vital", "vivid"
  , "vocal", "voice", "void", "volcano", "volume", "vote", "voyage", "wage", "wagon", "wait"
  , "walk", "wall", "walnut", "want", "warfare", "warm", "warrior", "wash", "wasp", "waste"
  , "water", "wave", "way", "wealth", "weapon", "wear", "weasel", "weather", "web", "wedding"
  , "weekend", "weird", "welcome", "west", "wet", "whale", "what", "wheat", "wheel", "when"
  , "where", "whip", "whisper", "wide", "width", "wife", "wild", "will", "win", "window"
  , "wine", "wing", "wink", "winner", "winter", "wire", "wisdom", "wise", "wish", "witness"
  , "wolf", "woman", "wonder", "wood", "wool", "word", "work", "world", "worry", "worth"
  , "wrap", "wreck", "wrestle", "wrist", "write", "wrong", "yard", "year", "yellow", "you"
  , "young", "youth", "zebra", "zero", "zone", "zoo"]

def BIP39_RAW : List String :=
  BIP39_RAW_0 ++ BIP39_RAW_1 ++ BIP39_RAW_2 ++ BIP39_RAW_3 ++ BIP39_RAW_4 ++ BIP39_RAW_5 ++ BIP39_RAW_6 ++ BIP39_RAW_7
/-- The 2048-word BIP39 vocabulary (`BIP39_WORDS`), as character lists. -/
def BIP39_WORDS : List (List Char) :=
  BIP39_RAW.map String.data

example : stripToken (("1.").data) = .skip := by decide
example : stripToken (("\x22abandon,\x22").data) = .word (("abandon").data) := by decide
example : stripToken (("they're").data) = .broken := by decide
example : splitWs ((" a  bc ").data) = [[Char.ofNat 97], [Char.ofNat 98, Char.ofNat 99]] := by decide
example : splitLines (("a\n\nb").data) = [(("a").data), [], (("b").data)] := by decide

/-- The violation record produced by both passes (`Bip39Violation`).
`lineNumber` is an `Int` because the cross-line flush computes it as
`crossLineStart + 1` where `crossLineStart` may still be the sentinel `-1`. -/
structure Violation where
  lineNumber : Int
  matchedWords : List (List Char)
  line : List Char
deriving DecidableEq, Repr

/-- JavaScript `arr.slice(-c)`: the last `c` elements, except that
`slice(-0)` is `slice(0)`, the whole array. -/
def sliceNeg (l : List (List Char)) (c : Nat) : List (List Char) :=
  if c = 0 then l else l.drop (l.length - c)

/-- Single-line pass state: the `consecutive` counter and the
`matchedWords` buffer. -/
structure ScanState where
  consecutive : Nat
  matched : List (List Char)
deriving DecidableEq, Repr

/-- The run-break in the single-line loop: emit a violation when the counter
has reached the threshold, then reset counter and buffer. -/
def breakRun (threshold : Int) (i : Nat) (line : List Char)
    (acc : ScanState × List Violation) : ScanState × List Violation :=
  if (acc.1.consecutive : Int) ≥ threshold then
    (⟨0, []⟩, acc.2 ++
      [⟨(i : Int) + 1, sliceNeg acc.1.matched acc.1.consecutive, line⟩])
  else
    (⟨0, []⟩, acc.2)

/-- One token of the single-line loop of `detectBip39Sequences` (Pass 1):
`skip` and annotation tokens are transparent, vocabulary words extend the
run, anything else breaks it. -/
def scanStep (threshold : Int) (i : Nat) (line : List Char)
    (acc : ScanState × List Violation) (tok : List Char) :
    ScanState × List Violation :=
  match stripToken tok with
  | .skip => acc
  | .word w =>
    if annotTokens.contains w then acc
    else if BIP39_WORDS.contains w then
      (⟨acc.1.consecutive + 1, acc.1.matched ++ [w]⟩, acc.2)
    else breakRun threshold i line acc
  | .broken => breakRun threshold i line acc

/-- Pass 1 on one line: fold the token loop, then the end-of-line check
(`if (consecutive >= threshold)` after the loop). -/
def scanLine (threshold : Int) (i : Nat) (line : List Char) : List Violation :=
  let acc := (tokensOfLine line).foldl (scanStep threshold i line) (⟨0, []⟩, [])
  if (acc.1.consecutive : Int) ≥ threshold then
    acc.2 ++ [⟨(i : Int) + 1, sliceNeg acc.1.matched acc.1.consecutive, line⟩]
  else acc.2

/-- Pass 1 over all lines from index `i`: collects the violations and the
`reportedLines` set (a line index is recorded iff the line produced at least
one violation, exactly as the source adds to `reportedLines` at each push). -/
def pass1Go (threshold : Int) : Nat → List (List Char) → List Violation × List Nat
  | _, [] => ([], [])
  | i, line :: rest =>
    let vs := scanLine threshold i line
    let r := pass1Go threshold (i + 1) rest
    (vs ++ r.1, (if vs = [] then [] else [i]) ++ r.2)

/-- State of `analyzeLine`: collected vocabulary words, `hasNonBip39Word`,
`hasAnyWord`. -/
structure AnalyzeState where
  words : List (List Char)
  hasNon : Bool
  hasAny : Bool
deriving DecidableEq, Repr

/-- One token of `analyzeLine`'s loop. -/
def analyzeStep (st : AnalyzeState) (tok : List Char) : AnalyzeState :=
  match stripToken tok with
  | .skip => st
  | .word w =>
    if annotTokens.contains w then st
    else if BIP39_WORDS.contains w then ⟨st.words ++ [w], st.hasNon, true⟩
    else ⟨st.words, true, true⟩
  | .broken => ⟨st.words, true, true⟩

/-- The function `analyzeLine`: the vocabulary words found on the line and whether the
line is "BIP39-pure" (`hasAnyWord && !hasNonBip39Word`); an empty token list
returns `([], false)` early as in the source. -/
def analyzeLine (line : List Char) : List (List Char) × Bool :=
  let toks := tokensOfLine line
  if toks = [] then ([], false)
  else
    let st := toks.foldl analyzeStep ⟨[], false, false⟩
    (st.words, st.hasAny && !st.hasNon)

/-- Reading `lines[i]` for the `Int` index used by the flush; the out-of-bounds read
`lines[-1]` (JavaScript `undefined`) is modelled as the empty string. -/
def lineAt (lines : List (List Char)) (i : Int) : List Char :=
  if 0 ≤ i then lines.getD i.toNat [] else []

/-- The function `flushCrossLine`: emit the accumulated run when it meets the threshold. -/
def flushCrossLine (lines : List (List Char)) (threshold : Int)
    (cw : List (List Char)) (cs : Int) : List Violation :=
  if (cw.length : Int) ≥ threshold then [⟨cs + 1, cw, lineAt lines cs⟩] else []

/-- The cross-line loop (Pass 2) from index `i`, with `rest` the remaining
lines (`rest = lines.drop i` at the call site), `cw` the accumulated words
and `cs` the `crossLineStart` sentinel (`-1` for "none"). -/
def crossGo (lines : List (List Char)) (claimed : List Nat) (threshold : Int) :
    Nat → List (List Char) → List (List Char) → Int → List Violation
  | _, [], cw, cs => flushCrossLine lines threshold cw cs
  | i, line :: rest, cw, cs =>
    if claimed.contains i then
      flushCrossLine lines threshold cw cs ++
        crossGo lines claimed threshold (i + 1) rest [] (-1)
    else if line.all isWs then
      crossGo lines claimed threshold (i + 1) rest cw cs
    else
      let a := analyzeLine line
      if a.2 && !a.1.isEmpty then
        crossGo lines claimed threshold (i + 1) rest (cw ++ a.1)
          (if cs = -1 then (i : Int) else cs)
      else
        flushCrossLine lines threshold cw cs ++
          crossGo lines claimed threshold (i + 1) rest [] (-1)

/-- Pass 2 (`scanCrossLine` in the specification): the cross-line
accumulator over all lines, with a final flush. -/
def scanCrossLine (lines : List (List Char)) (claimed : List Nat)
    (threshold : Int) : List Violation :=
  crossGo lines claimed threshold 0 lines [] (-1)

/-- The function `detectBip39Sequences(content, threshold)`: empty content short-circuits;
otherwise Pass 1 then Pass 2 over the same lines, concatenated. -/
def detectBip39Sequences (content : List Char) (threshold : Int := 5) :
    List Violation :=
  if content = [] then []
  else
    let lines := splitLines content
    let p1 := pass1Go threshold 0 lines
    p1.1 ++ scanCrossLine lines p1.2 threshold

/-- Result of the bash `strip_token`: `SKIP`, `BREAK`, or the lowercased
core word. -/
inductive BashStrip where
  | skipped : BashStrip
  | brk : BashStrip
  | word : List Char → BashStrip
deriving DecidableEq, Repr

/-- The bash implementation's `strip_token`: like `stripToken` it strips
non-letter boundary characters (here `[a-zA-Z]`, lowercasing afterwards),
but it additionally returns `BREAK` when the stripped leading or trailing
portion contains a digit (`board[0]`, `abandon123`). -/
def bashStripToken (t : List Char) : BashStrip :=
  let leading := t.takeWhile (fun c => !isAlphaChar c)
  let rest := t.dropWhile (fun c => !isAlphaChar c)
  if rest = [] then .skipped
  else
    let trailing := (rest.reverse.takeWhile (fun c => !isAlphaChar c)).reverse
    let core := (rest.reverse.dropWhile (fun c => !isAlphaChar c)).reverse
    if core.any (fun c => !isAlphaChar c) then .brk
    else if leading.any isDigitChar || trailing.any isDigitChar then .brk
    else .word (core.map asciiLower)

example : bashStripToken (("abandon123").data) = .brk := by decide
example : bashStripToken (("board[0]").data) = .brk := by decide
example : bashStripToken (("\x22Abandon,\x22").data) = .word (("abandon").data) := by decide
example : stripToken (("abandon123").data) = .word (("abandon").data) := by decide

set_option maxRecDepth 10000

/-! ### Basic facts about the classifier -/

/-- Every vocabulary entry is a nonempty, purely lowercase-alphabetic word. -/
theorem vocab_wf : BIP39_WORDS.all (fun w => !w.isEmpty && w.all isLowerAlpha) = true := by
  decide

/-- The vocabulary has exactly 2048 entries. -/
theorem vocab_length : BIP39_WORDS.length = 2048 := by
  have h0 : BIP39_RAW_0.length = 256 := by decide
  have h1 : BIP39_RAW_1.length = 256 := by decide
  have h2 : BIP39_RAW_2.length = 256 := by decide
  have h3 : BIP39_RAW_3.length = 256 := by decide
  have h4 : BIP39_RAW_4.length = 256 := by decide
  have h5 : BIP39_RAW_5.length = 256 := by decide
  have h6 : BIP39_RAW_6.length = 256 := by decide
  have h7 : BIP39_RAW_7.length = 256 := by decide
  simp [BIP39_WORDS, BIP39_RAW, List.length_map, List.length_append,
    h0, h1, h2, h3, h4, h5, h6, h7]

/-- A lowercase letter is not whitespace. -/
theorem lower_no_ws {c : Char} (h : isLowerAlpha c = true) : isWs c = false := by
  by_contra hne
  have hw : isWs c = true := by revert hne; cases isWs c <;> simp
  simp only [isWs, Bool.or_eq_true, beq_iff_eq] at hw
  rcases hw with ((((rfl | rfl) | rfl) | rfl) | rfl) | rfl <;> exact absurd h (by decide)

/-- Membership in the vocabulary list via `contains`. -/
theorem mem_vocab {w : List Char} (h : BIP39_WORDS.contains w = true) :
    w ∈ BIP39_WORDS := by
  simpa using h

/-- A vocabulary member is nonempty and all-lowercase. -/
theorem vocab_member_wf {w : List Char} (h : BIP39_WORDS.contains w = true) :
    w ≠ [] ∧ w.all isLowerAlpha = true := by
  have hm := mem_vocab h
  have := List.all_eq_true.mp vocab_wf w hm
  simp only [Bool.and_eq_true, List.isEmpty_eq_true] at this
  refine ⟨?_, this.2⟩
  intro hnil
  rw [hnil] at this
  simp at this

/-- Applying `dropWhile` with a predicate the head fails keeps the list. -/
theorem dropWhile_all_false {p : Char → Bool} {l : List Char}
    (h : l.all (fun c => !p c) = true) : l.dropWhile p = l := by
  cases l with
  | nil => rfl
  | cons c rest =>
    rw [List.dropWhile_cons]
    simp only [List.all_cons, Bool.and_eq_true, Bool.not_eq_true'] at h
    simp [h.1]

/-- The function `stripToken` on a nonempty all-lowercase token returns the token itself
as the word. -/
theorem stripToken_clean {w : List Char} (hne : w ≠ [])
    (hall : w.all isLowerAlpha = true) : stripToken w = .word w := by
  have hall' : w.all (fun c => !(!isLowerAlpha c)) = true := by
    simpa using hall
  have hdrop : w.dropWhile (fun c => !isLowerAlpha c) = w :=
    dropWhile_all_false hall'
  have hallr : w.reverse.all (fun c => !(!isLowerAlpha c)) = true := by
    simpa [List.all_reverse] using hall
  have hdropr : w.reverse.dropWhile (fun c => !isLowerAlpha c) = w.reverse :=
    dropWhile_all_false hallr
  simp only [stripToken, hdrop, hdropr, List.reverse_reverse, if_neg hne, hall,
    if_true]

/-- A line whose characters are all whitespace splits into no tokens. -/
theorem splitWs_blank {l : List Char} (h : l.all isWs = true) :
    splitWs l = [] := by
  induction l with
  | nil => rfl
  | cons c rest ih =>
    simp only [List.all_cons, Bool.and_eq_true] at h
    simp only [splitWs, splitWsGo, h.1, if_true, if_pos rfl]
    exact ih h.2

/-- The worker `splitWsGo` never returns the empty list when a token is in progress or
some character is not whitespace. -/
theorem splitWsGo_ne_nil :
    ∀ (l cur : List Char), (cur ≠ [] ∨ l.all isWs = false) →
      splitWsGo l cur ≠ [] := by
  intro l
  induction l with
  | nil =>
    intro cur h
    rcases h with h | h
    · simp [splitWsGo, h]
    · simp at h
  | cons c rest ih =>
    intro cur h
    by_cases hc : isWs c = true
    · rcases h with h | h
      · simp [splitWsGo, hc, h]
      · simp only [List.all_cons, hc, Bool.true_and] at h
        by_cases hcur : cur = []
        · subst hcur
          simp only [splitWsGo, hc, if_true, if_pos rfl]
          exact ih [] (Or.inr h)
        · simp [splitWsGo, hc, hcur]
    · have hc' : isWs c = false := by revert hc; cases isWs c <;> simp
      simp only [splitWsGo, hc', Bool.false_eq_true, if_false]
      exact ih (cur ++ [c]) (Or.inl (by simp))

/-- A line with no tokens is entirely whitespace. -/
theorem all_ws_of_no_tokens {l : List Char} (h : splitWs l = []) :
    l.all isWs = true := by
  by_contra hne
  have : l.all isWs = false := by revert hne; cases l.all isWs <;> simp
  exact splitWsGo_ne_nil l [] (Or.inr this) h

/-- Splitting a newline-free string on newlines gives the single line. -/
theorem splitLines_single {l : List Char} (h : '\n' ∉ l) :
    splitLines l = [l] := by
  induction l with
  | nil => rfl
  | cons c rest ih =>
    simp only [List.mem_cons, not_or] at h
    have hr := ih h.2
    simp only [splitLines, hr]
    rw [if_neg (fun hc => h.1 hc.symm)]

/-- Taking the last `length` elements is the identity (`slice(-len)`). -/
theorem sliceNeg_self (l : List (List Char)) : sliceNeg l l.length = l := by
  unfold sliceNeg
  split
  · rfl
  · simp [Nat.sub_self]

/-- The single-line token loop over vocabulary words (that are not
annotation labels) only extends the counter and the buffer. -/
theorem foldl_scanStep_vocab (t : Int) (i : Nat) (line : List Char)
    {ws : List (List Char)}
    (h : ∀ w ∈ ws, BIP39_WORDS.contains w = true ∧
      annotTokens.contains w = false) :
    ∀ (st : ScanState) (vs : List Violation),
      ws.foldl (scanStep t i line) (st, vs) =
        (⟨st.consecutive + ws.length, st.matched ++ ws⟩, vs) := by
  induction ws with
  | nil => intro st vs; simp
  | cons w rest ih =>
    intro st vs
    have hw := h w (by simp)
    have hwf := vocab_member_wf hw.1
    have hstrip := stripToken_clean hwf.1 hwf.2
    have hmem : w ∈ BIP39_WORDS := mem_vocab hw.1
    have hnannot : w ∉ annotTokens := by simpa using hw.2
    have hstep : scanStep t i line (st, vs) w =
        (⟨st.consecutive + 1, st.matched ++ [w]⟩, vs) := by
      simp [scanStep, hstrip, hmem, hnannot]
    have hrest : ∀ w2 ∈ rest, BIP39_WORDS.contains w2 = true ∧
        annotTokens.contains w2 = false := fun w2 hm => h w2 (by simp [hm])
    rw [List.foldl_cons, hstep, ih hrest]
    simp only [List.length_cons, List.append_assoc, List.singleton_append]
    congr 1
    simp only [ScanState.mk.injEq, and_true]
    omega

/-- Pass 1 on a line whose tokens are exactly the vocabulary words `ws`
(none an annotation label): a single end-of-line emission when the threshold
is met. -/
theorem scanLine_vocab {t : Int} {i : Nat} {line : List Char}
    {ws : List (List Char)} (htok : tokensOfLine line = ws)
    (h : ∀ w ∈ ws, BIP39_WORDS.contains w = true ∧
      annotTokens.contains w = false) :
    scanLine t i line =
      if (ws.length : Int) ≥ t then [⟨(i : Int) + 1, ws, line⟩] else [] := by
  unfold scanLine
  rw [htok, foldl_scanStep_vocab t i line h ⟨0, []⟩ []]
  simp [sliceNeg_self]

/-- The `analyzeLine` loop over vocabulary words (no annotation labels):
collects them all, never sets `hasNonBip39Word`, sets `hasAnyWord` iff some
word was seen. -/
theorem foldl_analyzeStep_vocab {ws : List (List Char)}
    (h : ∀ w ∈ ws, BIP39_WORDS.contains w = true ∧
      annotTokens.contains w = false) :
    ∀ st : AnalyzeState,
      ws.foldl analyzeStep st =
        ⟨st.words ++ ws, st.hasNon, st.hasAny || !ws.isEmpty⟩ := by
  induction ws with
  | nil => intro st; simp
  | cons w rest ih =>
    intro st
    have hw := h w (by simp)
    have hwf := vocab_member_wf hw.1
    have hstrip := stripToken_clean hwf.1 hwf.2
    have hmem : w ∈ BIP39_WORDS := mem_vocab hw.1
    have hnannot : w ∉ annotTokens := by simpa using hw.2
    have hstep : analyzeStep st w = ⟨st.words ++ [w], st.hasNon, true⟩ := by
      simp [analyzeStep, hstrip, hmem, hnannot]
    have hrest : ∀ w2 ∈ rest, BIP39_WORDS.contains w2 = true ∧
        annotTokens.contains w2 = false := fun w2 hm => h w2 (by simp [hm])
    rw [List.foldl_cons, hstep, ih hrest]
    simp

/-- The function `analyzeLine` on a line tokenizing to nonempty vocabulary words `ws`:
the line is pure and contributes exactly `ws`. -/
theorem analyzeLine_vocab {line : List Char} {ws : List (List Char)}
    (htok : tokensOfLine line = ws) (hne : ws ≠ [])
    (h : ∀ w ∈ ws, BIP39_WORDS.contains w = true ∧
      annotTokens.contains w = false) :
    analyzeLine line = (ws, true) := by
  unfold analyzeLine
  rw [htok, if_neg hne, foldl_analyzeStep_vocab h ⟨[], false, false⟩]
  simp [hne]


/-! ### Small-step lemmas for the cross-line loop -/

theorem flush_lt {lines : List (List Char)} {t : Int} {cw : List (List Char)}
    {cs : Int} (h : ¬ ((cw.length : Int) ≥ t)) :
    flushCrossLine lines t cw cs = [] := by
  simp [flushCrossLine, h]

theorem flush_ge {lines : List (List Char)} {t : Int} {cw : List (List Char)}
    {cs : Int} (h : (cw.length : Int) ≥ t) :
    flushCrossLine lines t cw cs = [⟨cs + 1, cw, lineAt lines cs⟩] := by
  simp [flushCrossLine, h]

theorem flush_nil {lines : List (List Char)} {t : Int} {cs : Int}
    (ht : 1 ≤ t) : flushCrossLine lines t [] cs = [] :=
  flush_lt (by simp; omega)

theorem crossGo_nil (lines : List (List Char)) (claimed : List Nat) (t : Int)
    (i : Nat) (cw : List (List Char)) (cs : Int) :
    crossGo lines claimed t i [] cw cs = flushCrossLine lines t cw cs := rfl

theorem crossGo_claimed {claimed : List Nat} {i : Nat}
    (lines : List (List Char)) (t : Int) (line : List Char)
    (rest : List (List Char)) (cw : List (List Char)) (cs : Int)
    (h : claimed.contains i = true) :
    crossGo lines claimed t i (line :: rest) cw cs =
      flushCrossLine lines t cw cs ++
        crossGo lines claimed t (i + 1) rest [] (-1) := by
  have h' : i ∈ claimed := by simpa using h
  simp [crossGo, h']

theorem crossGo_blank {claimed : List Nat} {i : Nat} {line : List Char}
    (lines : List (List Char)) (t : Int) (rest : List (List Char))
    (cw : List (List Char)) (cs : Int)
    (h : claimed.contains i = false) (hb : line.all isWs = true) :
    crossGo lines claimed t i (line :: rest) cw cs =
      crossGo lines claimed t (i + 1) rest cw cs := by
  have h' : i ∉ claimed := by simpa using h
  simp [crossGo, h', hb]

theorem crossGo_pure {claimed : List Nat} {i : Nat} {line : List Char}
    (lines : List (List Char)) (t : Int) (rest : List (List Char))
    (cw : List (List Char)) (cs : Int)
    (h : claimed.contains i = false) (hb : line.all isWs = false)
    (ha : (analyzeLine line).2 = true) (hne : (analyzeLine line).1 ≠ []) :
    crossGo lines claimed t i (line :: rest) cw cs =
      crossGo lines claimed t (i + 1) rest (cw ++ (analyzeLine line).1)
        (if cs = -1 then (i : Int) else cs) := by
  have h' : i ∉ claimed := by simpa using h
  simp [crossGo, h', hb, ha, hne]

theorem crossGo_flush {claimed : List Nat} {i : Nat} {line : List Char}
    (lines : List (List Char)) (t : Int) (rest : List (List Char))
    (cw : List (List Char)) (cs : Int)
    (h : claimed.contains i = false) (hb : line.all isWs = false)
    (ha : ((analyzeLine line).2 && !(analyzeLine line).1.isEmpty) = false) :
    crossGo lines claimed t i (line :: rest) cw cs =
      flushCrossLine lines t cw cs ++
        crossGo lines claimed t (i + 1) rest [] (-1) := by
  have h' : i ∉ claimed := by simpa using h
  simp [crossGo, h', hb, ha]

theorem pass1Go_cons (t : Int) (i : Nat) (line : List Char)
    (rest : List (List Char)) :
    pass1Go t i (line :: rest) =
      (scanLine t i line ++ (pass1Go t (i + 1) rest).1,
        (if scanLine t i line = [] then [] else [i]) ++
          (pass1Go t (i + 1) rest).2) := rfl

/-- Claim C1 (amended): for every integer threshold `t >= 1` and every single
line (no newline) whose whitespace-split tokens are exactly the vocabulary
words `ws`, none of which is an annotation label (the amendment — `seed` is
both a vocabulary word and an annotation label, and is transparent): exactly
`t - 1` such words produce no violation, and exactly `t` such words produce
exactly one violation whose `matchedWords` are precisely those words in
order (the threshold comparison is inclusive). -/
theorem threshold_boundary (t : Int) (ht : 1 ≤ t) (line : List Char)
    (ws : List (List Char)) (htok : tokensOfLine line = ws)
    (hnl : '\n' ∉ line)
    (hw : ∀ w ∈ ws, BIP39_WORDS.contains w = true ∧
      annotTokens.contains w = false) :
    ((ws.length : Int) = t - 1 → detectBip39Sequences line t = []) ∧
    ((ws.length : Int) = t → detectBip39Sequences line t = [⟨1, ws, line⟩]) := by
  by_cases hline : line = []
  · subst hline
    have hws : ws = [] := by
      have h0 : tokensOfLine [] = ([] : List (List Char)) := rfl
      rw [htok] at h0
      exact h0
    subst hws
    exact ⟨fun _ => by simp [detectBip39Sequences],
      fun hlen => absurd hlen (by simp; omega)⟩
  · have hlines : splitLines line = [line] := splitLines_single hnl
    have hscan : scanLine t 0 line =
        if (ws.length : Int) ≥ t then [⟨1, ws, line⟩] else [] := by
      have h1 := @scanLine_vocab t 0 line ws htok hw
      simpa using h1
    constructor
    · intro hlen
      have hnotge : ¬ ((ws.length : Int) ≥ t) := by omega
      have hscan' : scanLine t 0 line = [] := by rw [hscan, if_neg hnotge]
      have hcl : ([] : List Nat).contains 0 = false := rfl
      simp only [detectBip39Sequences, if_neg hline, hlines]
      rw [pass1Go_cons]
      simp only [hscan', if_pos rfl, List.nil_append, pass1Go]
      simp only [scanCrossLine, if_true, List.append_nil]
      by_cases hws : ws = []
      · have hsw : splitWs line = [] := by
          have h2 : (splitWs line).map (List.map asciiLower) = [] := by
            rw [← tokensOfLine, htok, hws]
          exact List.map_eq_nil_iff.mp h2
        have hblank : line.all isWs = true := all_ws_of_no_tokens hsw
        rw [crossGo_blank _ t _ _ _ hcl hblank, crossGo_nil, flush_nil ht]
      · have hblank : line.all isWs = false := by
          by_contra hb
          have hb' : line.all isWs = true := by
            revert hb; cases line.all isWs <;> simp
          have h3 := splitWs_blank hb'
          rw [← htok] at hws
          exact hws (by simp [tokensOfLine, h3])
        have hana : analyzeLine line = (ws, true) := analyzeLine_vocab htok hws hw
        rw [crossGo_pure _ t _ _ _ hcl hblank (by rw [hana]) (by rw [hana]; exact hws),
          crossGo_nil, hana]
        exact flush_lt (by simpa using hnotge)
    · intro hlen
      have hge : (ws.length : Int) ≥ t := by omega
      have hscan' : scanLine t 0 line = [⟨1, ws, line⟩] := by
        rw [hscan, if_pos hge]
      have hcl : ([0] : List Nat).contains 0 = true := rfl
      simp only [detectBip39Sequences, if_neg hline, hlines]
      rw [pass1Go_cons]
      simp only [hscan', List.nil_append, pass1Go]
      rw [if_neg (by simp)]
      simp only [scanCrossLine, List.singleton_append]
      rw [crossGo_claimed _ t _ _ _ _ hcl, crossGo_nil, flush_nil ht]
      simp

def exC1cex : List Char := ("seed abandon ability able about").data

/-- Claim C1 counterexample: `seed abandon ability able about` is a single
line of exactly five whitespace-separated vocabulary words (`seed` is in the
vocabulary), yet with threshold 5 `detect` produces no violation — the claim
as stated requires exactly one violation covering all five words. -/
theorem threshold_boundary_cex :
    (∀ w ∈ tokensOfLine exC1cex, BIP39_WORDS.contains w = true) ∧
    (tokensOfLine exC1cex).length = 5 ∧
    detectBip39Sequences exC1cex 5 = [] := by decide

def exC1a : List Char := ("abandon ability able about").data

def exC1b : List Char := ("abandon ability able about above").data

/-- Witness for `threshold_boundary` at threshold 5: four vocabulary words
yield nothing, five yield exactly one violation. -/
theorem threshold_boundary_witness :
    detectBip39Sequences exC1a 5 = [] ∧
    detectBip39Sequences exC1b 5 =
      [⟨1, [("abandon").data, ("ability").data, ("able").data, ("about").data,
        ("above").data], exC1b⟩] := by
  constructor
  · exact (threshold_boundary 5 (by decide) exC1a (tokensOfLine exC1a) rfl
      (by decide) (by decide)).1 (by decide)
  · exact (threshold_boundary 5 (by decide) exC1b (tokensOfLine exC1b) rfl
      (by decide) (by decide)).2 (by decide)

def exC4 : List Char := ("seed abandon ability able about above").data

/-- Claim C4: annotation classification takes precedence over vocabulary
membership — a token stripping to an annotation word leaves both passes'
states unchanged (transparent), even when that word is in the vocabulary;
concretely, `seed` (a vocabulary member) is excluded and the five words
after it form the only violation. -/
theorem annotation_precedence :
    (∀ (t : Int) (i : Nat) (line tok w : List Char)
      (acc : ScanState × List Violation) (st : AnalyzeState),
      stripToken tok = .word w → annotTokens.contains w = true →
      scanStep t i line acc tok = acc ∧ analyzeStep st tok = st) ∧
    (("seed").data ∈ BIP39_WORDS ∧ ("seed").data ∈ annotTokens) ∧
    detectBip39Sequences exC4 5 =
      [⟨1, [("abandon").data, ("ability").data, ("able").data, ("about").data,
        ("above").data], exC4⟩] := by
  refine ⟨?_, by decide, by decide⟩
  intro t i line tok w acc st hstrip hannot
  have h' : w ∈ annotTokens := by simpa using hannot
  constructor
  · simp [scanStep, hstrip, h']
  · simp [analyzeStep, hstrip, h']

/-- Witness for `annotation_precedence`: the token `seed:` is transparent for
both passes' step functions. -/
theorem annotation_precedence_witness :
    scanStep 5 0 exC4 (⟨0, []⟩, []) (("seed:").data) = (⟨0, []⟩, []) ∧
    analyzeStep ⟨[], false, false⟩ (("seed:").data) = ⟨[], false, false⟩ :=
  annotation_precedence.1 5 0 exC4 (("seed:").data) (("seed").data)
    (⟨0, []⟩, []) ⟨[], false, false⟩ (by decide) (by decide)

def exC5 : List Char := ("abandon\nability\nable\n\nabout\nabove").data

/-- Claim C5: in the cross-line pass an empty or whitespace-only (unclaimed)
line is transparent — it neither flushes nor extends the accumulated run —
so pure lines separated by blank lines form one run; concretely the five
one-word lines with a blank in the middle yield one violation of five words
reported at line 1. -/
theorem blank_line_transparent :
    (∀ (lines : List (List Char)) (claimed : List Nat) (t : Int) (i : Nat)
      (line : List Char) (rest : List (List Char)) (cw : List (List Char))
      (cs : Int), claimed.contains i = false → line.all isWs = true →
      crossGo lines claimed t i (line :: rest) cw cs =
        crossGo lines claimed t (i + 1) rest cw cs) ∧
    detectBip39Sequences exC5 5 =
      [⟨1, [("abandon").data, ("ability").data, ("able").data, ("about").data,
        ("above").data], ("abandon").data⟩] := by
  refine ⟨?_, by decide⟩
  intro lines claimed t i line rest cw cs h hb
  exact crossGo_blank lines t rest cw cs h hb

/-- Witness for `blank_line_transparent`: a tab-and-spaces line is skipped
without touching the accumulator. -/
theorem blank_line_transparent_witness :
    crossGo [("  \t ").data] [] 5 0 [("  \t ").data] [("abandon").data] 0 =
      crossGo [("  \t ").data] [] 5 1 [] [("abandon").data] 0 :=
  blank_line_transparent.1 [("  \t ").data] [] 5 0 (("  \t ").data) []
    [("abandon").data] 0 (by decide) (by decide)

def exC10 : List Char :=
  ("abandon ability able about above xyz zoo zone zero youth young").data

/-- Claim C10: one line can produce two violations — two runs of five
vocabulary words separated by a single non-vocabulary token give two
distinct violations with the same line number, one per qualifying run. -/
theorem two_runs_one_line :
    detectBip39Sequences exC10 5 =
      [⟨1, [("abandon").data, ("ability").data, ("able").data, ("about").data,
        ("above").data], exC10⟩,
       ⟨1, [("zoo").data, ("zone").data, ("zero").data, ("youth").data,
        ("young").data], exC10⟩] ∧
    (⟨1, [("abandon").data, ("ability").data, ("able").data, ("about").data,
        ("above").data], exC10⟩ : Violation) ≠
      ⟨1, [("zoo").data, ("zone").data, ("zero").data, ("youth").data,
        ("young").data], exC10⟩ := by
  constructor
  · decide
  · decide

theorem takeWhile_append_all {α : Type} (p : α → Bool) {l1 : List α}
    (l2 : List α) (h : l1.all p = true) :
    (l1 ++ l2).takeWhile p = l1 ++ l2.takeWhile p := by
  induction l1 with
  | nil => simp
  | cons c rest ih =>
    simp only [List.all_cons, Bool.and_eq_true] at h
    simp [List.takeWhile_cons, h.1, ih h.2]

theorem dropWhile_append_all {α : Type} (p : α → Bool) {l1 : List α}
    (l2 : List α) (h : l1.all p = true) :
    (l1 ++ l2).dropWhile p = l2.dropWhile p := by
  induction l1 with
  | nil => simp
  | cons c rest ih =>
    simp only [List.all_cons, Bool.and_eq_true] at h
    simp [List.dropWhile_cons, h.1, ih h.2]

theorem takeWhile_head_false {α : Type} (p : α → Bool) {c : α} (l : List α)
    (h : p c = false) : (c :: l).takeWhile p = [] := by
  simp [List.takeWhile_cons, h]

theorem dropWhile_head_false {α : Type} (p : α → Bool) {c : α} (l : List α)
    (h : p c = false) : (c :: l).dropWhile p = c :: l := by
  simp [List.dropWhile_cons, h]

def exC2 : List Char := ("abandon123 ability123 able123 about123 above123").data

/-- Claim C2 (amended): the digit rule lives in the bash implementation
only. The bash `strip_token` returns `BREAK` for every token whose leading
or trailing trimmed-off substring contains a digit; the TypeScript
`stripToken`, by contrast, has no digit rule — it strips the trimmed-off
digits and classifies by the alphabetic core alone, so `abandon123` is
counted as the vocabulary word `abandon` and a line of five digit-suffixed
vocabulary words produces one violation from `detect`. -/
theorem digit_trim_classifier :
    (∀ (l core r : List Char), core ≠ [] → core.all isAlphaChar = true →
      l.all (fun c => !isAlphaChar c) = true →
      r.all (fun c => !isAlphaChar c) = true →
      (l.any isDigitChar || r.any isDigitChar) = true →
      bashStripToken (l ++ core ++ r) = .brk) ∧
    stripToken (("abandon123").data) = .word (("abandon").data) ∧
    detectBip39Sequences exC2 5 =
      [⟨1, [("abandon").data, ("ability").data, ("able").data, ("about").data,
        ("above").data], exC2⟩] := by
  refine ⟨?_, by decide, by decide⟩
  intro l core r hne hcore hl hr hdig
  obtain ⟨c, core', rfl⟩ : ∃ c core', core = c :: core' := by
    cases core with
    | nil => exact absurd rfl hne
    | cons c core' => exact ⟨c, core', rfl⟩
  have hc : isAlphaChar c = true := by
    simp only [List.all_cons, Bool.and_eq_true] at hcore
    exact hcore.1
  have hrev : (c :: core').reverse ≠ [] := by simp
  obtain ⟨d, cr', hdrev⟩ : ∃ d cr', (c :: core').reverse = d :: cr' := by
    cases hx : (c :: core').reverse with
    | nil => exact absurd hx hrev
    | cons d cr' => exact ⟨d, cr', rfl⟩
  have hd : isAlphaChar d = true := by
    have hmem : d ∈ (c :: core').reverse := by rw [hdrev]; simp
    rw [List.mem_reverse] at hmem
    exact List.all_eq_true.mp hcore d hmem
  have e1 : (l ++ (c :: core') ++ r).dropWhile (fun x => !isAlphaChar x) =
      (c :: core') ++ r := by
    rw [List.append_assoc, dropWhile_append_all _ _ hl]
    exact dropWhile_head_false _ _ (by simp [hc])
  have e2 : (l ++ (c :: core') ++ r).takeWhile (fun x => !isAlphaChar x) = l := by
    rw [List.append_assoc, takeWhile_append_all _ _ hl, List.cons_append,
      @takeWhile_head_false Char (fun x => !isAlphaChar x) c (core' ++ r)
        (by simp [hc])]
    simp
  have hrall : r.reverse.all (fun x => !isAlphaChar x) = true := by
    simpa [List.all_reverse] using hr
  have e3 : ((c :: core') ++ r).reverse.takeWhile (fun x => !isAlphaChar x) =
      r.reverse := by
    rw [List.reverse_append, takeWhile_append_all _ _ hrall, hdrev,
      @takeWhile_head_false Char (fun x => !isAlphaChar x) d cr'
        (by simp [hd])]
    simp
  have e4 : ((c :: core') ++ r).reverse.dropWhile (fun x => !isAlphaChar x) =
      (c :: core').reverse := by
    rw [List.reverse_append, dropWhile_append_all _ _ hrall, hdrev]
    exact dropWhile_head_false _ _ (by simp [hd])
  have hanyf : ((c :: core').any fun x => !isAlphaChar x) = false := by
    simp only [List.any_eq_false, Bool.not_eq_true']
    intro x hx
    have := List.all_eq_true.mp hcore x hx
    simp [this]
  simp only [bashStripToken, e1, e2, e3, e4, List.reverse_reverse]
  rw [if_neg (by simp)]
  simp only [hanyf, Bool.false_eq_true, if_false]
  rw [if_pos hdig]

/-- Claim C2 counterexample: `abandon123` is classified as the word
`abandon` (not `Broken`) by the TypeScript classifier, and the line of five
digit-suffixed vocabulary words is flagged by `detect`. -/
theorem digit_trim_cex :
    stripToken (("abandon123").data) ≠ .broken ∧
    detectBip39Sequences exC2 5 ≠ [] := by decide

/-- Witness for `digit_trim_classifier`: `board[0]` gets `BREAK` from the
bash `strip_token`. -/
theorem digit_trim_witness :
    bashStripToken (("board[0]").data) = .brk :=
  digit_trim_classifier.1 [] (("board").data) (("[0]").data) (by decide)
    (by decide) (by decide) (by decide) (by decide)

/-- A token is transparent when it classifies as `Skip` or as an annotation
label (the specification's two transparent variants). -/
def tokenTransparent (tok : List Char) : Bool :=
  match stripToken tok with
  | .skip => true
  | .word w => annotTokens.contains w
  | .broken => false

/-- The `analyzeLine` loop ignores transparent tokens entirely. -/
theorem foldl_analyzeStep_transparent {toks : List (List Char)}
    (h : ∀ tok ∈ toks, tokenTransparent tok = true) :
    ∀ st : AnalyzeState, toks.foldl analyzeStep st = st := by
  induction toks with
  | nil => intro st; rfl
  | cons tok rest ih =>
    intro st
    have htok := h tok (by simp)
    have hrest : ∀ tok2 ∈ rest, tokenTransparent tok2 = true :=
      fun tok2 hm => h tok2 (by simp [hm])
    have hstep : analyzeStep st tok = st := by
      unfold tokenTransparent at htok
      unfold analyzeStep
      cases hs : stripToken tok with
      | skip => rfl
      | broken => rw [hs] at htok; exact absurd htok (by simp)
      | word w =>
        rw [hs] at htok
        have h' : w ∈ annotTokens := by simpa using htok
        simp [h']
    rw [List.foldl_cons, hstep, ih hrest]

/-- A line all of whose tokens are transparent analyzes to no words and
`isBip39Pure = false`. -/
theorem analyzeLine_transparent {line : List Char}
    (h : ∀ tok ∈ tokensOfLine line, tokenTransparent tok = true) :
    analyzeLine line = ([], false) := by
  unfold analyzeLine
  by_cases hte : tokensOfLine line = []
  · simp [hte]
  · rw [if_neg hte, foldl_analyzeStep_transparent h]
    rfl

def exC7 : List Char :=
  ("abandon ability\nRecovery phrase:\nable about above").data

/-- Claim C7: a non-blank, unclaimed line all of whose tokens are `Skip` or
annotation labels (e.g. `Recovery phrase:`) flushes the accumulated
cross-line run; consequently two pure groups below threshold separated by
such a line never combine — concretely `abandon ability` and
`able about above` with `Recovery phrase:` between them yield nothing at
threshold 5. -/
theorem label_line_flush :
    (∀ (lines : List (List Char)) (claimed : List Nat) (t : Int) (i : Nat)
      (line : List Char) (rest cw : List (List Char)) (cs : Int),
      claimed.contains i = false → line.all isWs = false →
      (∀ tok ∈ tokensOfLine line, tokenTransparent tok = true) →
      crossGo lines claimed t i (line :: rest) cw cs =
        flushCrossLine lines t cw cs ++
          crossGo lines claimed t (i + 1) rest [] (-1)) ∧
    detectBip39Sequences exC7 5 = [] := by
  refine ⟨?_, by decide⟩
  intro lines claimed t i line rest cw cs h hb htr
  have hana : analyzeLine line = ([], false) := analyzeLine_transparent htr
  exact crossGo_flush lines t rest cw cs h hb (by rw [hana]; rfl)

/-- Witness for `label_line_flush`: an annotation-only line (`Recovery
phrase:`) flushes a pending one-word accumulation. -/
theorem label_line_flush_witness :
    crossGo [("Recovery phrase:").data] [] 5 0 [("Recovery phrase:").data]
        [("abandon").data] 0 =
      flushCrossLine [("Recovery phrase:").data] 5 [("abandon").data] 0 ++
        crossGo [("Recovery phrase:").data] [] 5 1 [] [] (-1) :=
  label_line_flush.1 [("Recovery phrase:").data] [] 5 0
    (("Recovery phrase:").data) [] [("abandon").data] 0 (by decide) (by decide)
    (by decide)

/-- A token that counts as an in-vocabulary word (not an annotation). -/
def tokenVocab (tok : List Char) : Bool :=
  match stripToken tok with
  | .word w => !annotTokens.contains w && BIP39_WORDS.contains w
  | _ => false

/-- A token that classifies as `Broken` or as a word outside the
vocabulary — the "non-vocabulary word" of the purity test. -/
def tokenNonVocab (tok : List Char) : Bool :=
  match stripToken tok with
  | .broken => true
  | .word w => !annotTokens.contains w && !BIP39_WORDS.contains w
  | .skip => false

/-- The step `analyzeStep` never clears `hasNonBip39Word`. -/
theorem analyzeStep_hasNon {st : AnalyzeState} (tok : List Char)
    (h : st.hasNon = true) : (analyzeStep st tok).hasNon = true := by
  unfold analyzeStep
  cases stripToken tok with
  | skip => exact h
  | broken => rfl
  | word w =>
    by_cases ha : w ∈ annotTokens
    · simp [ha, h]
    · by_cases hb : w ∈ BIP39_WORDS <;> simp [ha, hb, h]

/-- The `analyzeLine` loop never clears `hasNonBip39Word`. -/
theorem foldl_analyzeStep_hasNon (toks : List (List Char)) :
    ∀ st : AnalyzeState, st.hasNon = true →
      (toks.foldl analyzeStep st).hasNon = true := by
  induction toks with
  | nil => intro st h; exact h
  | cons tok rest ih =>
    intro st h
    rw [List.foldl_cons]
    exact ih _ (analyzeStep_hasNon tok h)

/-- A non-vocabulary token sets `hasNonBip39Word`. -/
theorem analyzeStep_sets_hasNon {tok : List Char} (st : AnalyzeState)
    (h : tokenNonVocab tok = true) : (analyzeStep st tok).hasNon = true := by
  unfold tokenNonVocab at h
  unfold analyzeStep
  cases hs : stripToken tok with
  | skip => rw [hs] at h; exact absurd h (by simp)
  | broken => rfl
  | word w =>
    rw [hs] at h
    simp only [Bool.and_eq_true, Bool.not_eq_true'] at h
    have h1 : w ∉ annotTokens := by simpa using h.1
    have h2 : w ∉ BIP39_WORDS := by simpa using h.2
    simp [h1, h2]

/-- A line containing a non-vocabulary token is not pure. -/
theorem analyzeLine_impure {line : List Char}
    (h : ∃ tok ∈ tokensOfLine line, tokenNonVocab tok = true) :
    (analyzeLine line).2 = false := by
  obtain ⟨tok, hmem, htok⟩ := h
  have hne : tokensOfLine line ≠ [] := by
    intro hn; rw [hn] at hmem; exact absurd hmem (by simp)
  obtain ⟨s, t, hst⟩ := List.append_of_mem hmem
  unfold analyzeLine
  rw [if_neg hne, hst, List.foldl_append, List.foldl_cons]
  have hNon := foldl_analyzeStep_hasNon t
    (analyzeStep (List.foldl analyzeStep ⟨[], false, false⟩ s) tok)
    (analyzeStep_sets_hasNon _ htok)
  simp [hNon]

/-- With no pure line in sight the cross-line loop accumulates nothing and
(at threshold >= 1) emits nothing. -/
theorem crossGo_no_pure (lines : List (List Char)) (claimed : List Nat)
    (t : Int) (ht : 1 ≤ t) :
    ∀ (rest : List (List Char)) (i : Nat),
      (∀ l ∈ rest, (analyzeLine l).2 = false) →
      crossGo lines claimed t i rest [] (-1) = [] := by
  intro rest
  induction rest with
  | nil => intro i _; rw [crossGo_nil, flush_nil ht]
  | cons line rest' ih =>
    intro i h
    have hline := h line (by simp)
    have hrest : ∀ l ∈ rest', (analyzeLine l).2 = false :=
      fun l hm => h l (by simp [hm])
    by_cases hcl : claimed.contains i = true
    · rw [crossGo_claimed _ t _ _ _ _ hcl, flush_nil ht, List.nil_append]
      exact ih (i + 1) hrest
    · have hcl' : claimed.contains i = false := by
        revert hcl; cases claimed.contains i <;> simp
      by_cases hb : line.all isWs = true
      · rw [crossGo_blank _ t _ _ _ hcl' hb]
        exact ih (i + 1) hrest
      · have hb' : line.all isWs = false := by
          revert hb; cases line.all isWs <;> simp
        rw [crossGo_flush _ t _ _ _ hcl' hb' (by rw [hline]; rfl),
          flush_nil ht, List.nil_append]
        exact ih (i + 1) hrest

/-- Claim C6: if every line of the content contains both an in-vocabulary
word token and a non-vocabulary (or `Broken`) word token, then — for any
threshold >= 1 and any claimed-line set — the cross-line pass emits nothing,
and `detect` returns exactly the single-line pass's violations. -/
theorem mixed_line_suppression (content : List Char) (t : Int) (ht : 1 ≤ t)
    (h : ∀ l ∈ splitLines content,
      (∃ tok ∈ tokensOfLine l, tokenVocab tok = true) ∧
      (∃ tok ∈ tokensOfLine l, tokenNonVocab tok = true)) :
    (∀ claimed : List Nat, scanCrossLine (splitLines content) claimed t = []) ∧
    detectBip39Sequences content t = (pass1Go t 0 (splitLines content)).1 := by
  have himp : ∀ l ∈ splitLines content, (analyzeLine l).2 = false :=
    fun l hl => analyzeLine_impure (h l hl).2
  have hcross : ∀ claimed : List Nat,
      scanCrossLine (splitLines content) claimed t = [] := by
    intro claimed
    exact crossGo_no_pure (splitLines content) claimed t ht
      (splitLines content) 0 himp
  refine ⟨hcross, ?_⟩
  by_cases hc : content = []
  · exfalso
    subst hc
    have hmem : ([] : List Char) ∈ splitLines [] := by
      simp [splitLines]
    obtain ⟨⟨tok, htok, _⟩, _⟩ := h [] hmem
    have : tokensOfLine [] = [] := rfl
    rw [this] at htok
    exact absurd htok (by simp)
  · simp only [detectBip39Sequences, if_neg hc]
    rw [hcross _]
    simp

def exC6 : List Char := ("abandon xyz\nability qqq\nable zzz").data

/-- Witness for `mixed_line_suppression`: three lines each mixing a
vocabulary word with a non-vocabulary word produce no cross-line violation
and `detect` equals the single-line pass (which here finds nothing). -/
theorem mixed_line_suppression_witness :
    scanCrossLine (splitLines exC6) [] 5 = [] ∧
    detectBip39Sequences exC6 5 = (pass1Go 5 0 (splitLines exC6)).1 :=
  ⟨(mixed_line_suppression exC6 5 (by decide) (by decide)).1 [],
   (mixed_line_suppression exC6 5 (by decide) (by decide)).2⟩

/-- Unpacking `lines.drop i = line :: rest`. -/
theorem drop_cons {lines : List (List Char)} {i : Nat} {line : List Char}
    {rest : List (List Char)} (h : lines.drop i = line :: rest) :
    i < lines.length ∧ lines.getD i [] = line ∧ lines.drop (i + 1) = rest := by
  have hi : i < lines.length := by
    by_contra hle
    have hle' : lines.length ≤ i := by omega
    rw [List.drop_eq_nil_iff.mpr hle'] at h
    exact absurd h (by simp)
  have h2 := List.drop_eq_getElem_cons hi
  rw [h] at h2
  injection h2 with ha hb
  refine ⟨hi, ?_, hb.symm⟩
  rw [List.getD_eq_getElem?_getD, List.getElem?_eq_getElem hi]
  exact ha.symm

/-- The function `lineAt` at a nonnegative index is `getD`. -/
theorem lineAt_nat (lines : List (List Char)) (s : Nat) :
    lineAt lines (s : Int) = lines.getD s [] := by
  simp [lineAt]

/-- The function `lineAt` at the `-1` sentinel is the empty string. -/
theorem lineAt_neg_one (lines : List (List Char)) :
    lineAt lines (-1) = [] := by
  simp [lineAt]

/-- A blank line analyzes to no words and impure. -/
theorem analyzeLine_blank {line : List Char} (h : line.all isWs = true) :
    analyzeLine line = ([], false) := by
  have ht : tokensOfLine line = [] := by
    simp [tokensOfLine, splitWs_blank h]
  simp [analyzeLine, ht]

/-- The words accumulated by a cross-line run: the concatenation of
`analyzeLine`'s words over the line interval `[s, e]`. -/
def runWords (lines : List (List Char)) (s e : Nat) : List (List Char) :=
  ((List.range' s (e + 1 - s)).map
    (fun j => (analyzeLine (lines.getD j [])).1)).flatten

theorem runWords_self (lines : List (List Char)) (s : Nat) :
    runWords lines s s = (analyzeLine (lines.getD s [])).1 := by
  have h1 : s + 1 - s = 1 := by omega
  simp [runWords, h1]

theorem runWords_extend (lines : List (List Char)) {s e : Nat}
    (h : s ≤ e + 1) :
    runWords lines s (e + 1) =
      runWords lines s e ++ (analyzeLine (lines.getD (e + 1) [])).1 := by
  unfold runWords
  have h1 : e + 1 + 1 - s = (e + 1 - s) + 1 := by omega
  rw [h1, List.range'_concat]
  have h2 : s + 1 * (e + 1 - s) = e + 1 := by omega
  rw [h2, List.map_append, List.flatten_append]
  simp

/-- One `analyzeLine` step only adds vocabulary members to the word list. -/
theorem analyzeStep_words {st : AnalyzeState} {tok w2 : List Char}
    (h : w2 ∈ (analyzeStep st tok).words) :
    w2 ∈ st.words ∨ BIP39_WORDS.contains w2 = true := by
  unfold analyzeStep at h
  split at h
  · exact Or.inl h
  · split at h
    · exact Or.inl h
    · split at h
      · simp only [List.mem_append, List.mem_singleton] at h
        rcases h with h | rfl
        · exact Or.inl h
        · exact Or.inr (by assumption)
      · exact Or.inl h
  · exact Or.inl h

/-- The function `analyzeLine` only collects vocabulary members. -/
theorem foldl_analyzeStep_words (toks : List (List Char)) :
    ∀ st : AnalyzeState,
      (∀ w ∈ st.words, BIP39_WORDS.contains w = true) →
      ∀ w ∈ (toks.foldl analyzeStep st).words, BIP39_WORDS.contains w = true := by
  induction toks with
  | nil => intro st h; exact h
  | cons tok rest ih =>
    intro st h
    rw [List.foldl_cons]
    apply ih
    intro w2 hw2
    rcases analyzeStep_words hw2 with h2 | h2
    · exact h w2 h2
    · exact h2

theorem analyzeLine_words_vocab (line : List Char) :
    ∀ w ∈ (analyzeLine line).1, BIP39_WORDS.contains w = true := by
  unfold analyzeLine
  by_cases ht : tokensOfLine line = []
  · simp [ht]
  · rw [if_neg ht]
    exact foldl_analyzeStep_words _ ⟨[], false, false⟩ (by simp)

theorem runWords_vocab (lines : List (List Char)) (s e : Nat) :
    ∀ w ∈ runWords lines s e, BIP39_WORDS.contains w = true := by
  intro w hw
  unfold runWords at hw
  rw [List.mem_flatten] at hw
  obtain ⟨l, hl, hwl⟩ := hw
  rw [List.mem_map] at hl
  obtain ⟨j, _, rfl⟩ := hl
  exact analyzeLine_words_vocab _ w hwl

/-- What membership in a flush's output means. -/
theorem flush_cases {lines : List (List Char)} {t : Int}
    {cw : List (List Char)} {cs : Int} {v : Violation}
    (hv : v ∈ flushCrossLine lines t cw cs) :
    (cw.length : Int) ≥ t ∧ v = ⟨cs + 1, cw, lineAt lines cs⟩ := by
  unfold flushCrossLine at hv
  split at hv
  · simp only [List.mem_singleton] at hv
    exact ⟨by assumption, hv⟩
  · exact absurd hv (by simp)

/-- Decomposition of the cross-line loop: every violation it emits is either
the degenerate `threshold <= 0` empty flush, or covers a contiguous interval
of unclaimed lines, carries that interval's accumulated words, and points at
the interval's first line. -/
theorem crossGo_decomp (lines : List (List Char)) (claimed : List Nat)
    (t : Int) :
    ∀ (rest : List (List Char)) (i : Nat) (cw : List (List Char)) (cs : Int),
      lines.drop i = rest → i ≤ lines.length →
      ((cs = -1 ∧ cw = []) ∨
        (∃ s : Nat, cs = (s : Int) ∧ s < i ∧ s < lines.length ∧
          (∀ j, s ≤ j → j < i → claimed.contains j = false) ∧
          cw = runWords lines s (i - 1))) →
      ∀ v ∈ crossGo lines claimed t i rest cw cs,
        (t ≤ 0 ∧ v = ⟨0, [], []⟩) ∨
        (∃ s e : Nat, s ≤ e ∧ e < lines.length ∧
          v.lineNumber = (s : Int) + 1 ∧ v.line = lines.getD s [] ∧
          (∀ j, s ≤ j → j ≤ e → claimed.contains j = false) ∧
          v.matchedWords = runWords lines s e) := by
  intro rest
  induction rest with
  | nil =>
    intro i cw cs hdrop hle hinv v hv
    rw [crossGo_nil] at hv
    obtain ⟨hge, rfl⟩ := flush_cases hv
    rcases hinv with ⟨rfl, rfl⟩ | ⟨s, rfl, hsi, hslen, hclaim, hcw⟩
    · left
      refine ⟨by simpa using hge, ?_⟩
      norm_num [lineAt_neg_one]
    · right
      have hlen_i : lines.length = i := by
        have := List.drop_eq_nil_iff.mp hdrop
        omega
      refine ⟨s, i - 1, by omega, by omega, rfl, lineAt_nat lines s, ?_, hcw⟩
      intro j h1 h2
      exact hclaim j h1 (by omega)
  | cons line rest' ih =>
    intro i cw cs hdrop hle hinv v hv
    obtain ⟨hilen, hgetD, hdrop'⟩ := drop_cons hdrop
    by_cases hcl : claimed.contains i = true
    · rw [crossGo_claimed _ t _ _ _ _ hcl] at hv
      rcases List.mem_append.mp hv with hv1 | hv2
      · obtain ⟨hge, rfl⟩ := flush_cases hv1
        rcases hinv with ⟨rfl, rfl⟩ | ⟨s, rfl, hsi, hslen, hclaim, hcw⟩
        · left
          refine ⟨by simpa using hge, ?_⟩
          norm_num [lineAt_neg_one]
        · right
          refine ⟨s, i - 1, by omega, by omega, rfl, lineAt_nat lines s, ?_,
            hcw⟩
          intro j h1 h2
          exact hclaim j h1 (by omega)
      · exact ih (i + 1) [] (-1) hdrop' (by omega) (Or.inl ⟨rfl, rfl⟩) v hv2
    · have hcl' : claimed.contains i = false := by
        revert hcl; cases claimed.contains i <;> simp
      by_cases hb : line.all isWs = true
      · rw [crossGo_blank _ t _ _ _ hcl' hb] at hv
        apply ih (i + 1) cw cs hdrop' (by omega) ?_ v hv
        rcases hinv with ⟨rfl, rfl⟩ | ⟨s, rfl, hsi, hslen, hclaim, hcw⟩
        · exact Or.inl ⟨rfl, rfl⟩
        · right
          refine ⟨s, rfl, by omega, hslen, ?_, ?_⟩
          · intro j h1 h2
            by_cases hj : j < i
            · exact hclaim j h1 hj
            · have hji : j = i := by omega
              subst hji; exact hcl'
          · have hi1 : i - 1 + 1 = i := by omega
            have hext := @runWords_extend lines s (i - 1) (by omega)
            rw [hi1, hgetD, analyzeLine_blank hb] at hext
            simp only [List.append_nil] at hext
            have hi2 : (i + 1) - 1 = i := by omega
            rw [hi2, hext]
            exact hcw
      · have hb' : line.all isWs = false := by
          revert hb; cases line.all isWs <;> simp
        by_cases hp : ((analyzeLine line).2 && !(analyzeLine line).1.isEmpty) = true
        · rw [Bool.and_eq_true] at hp
          have hp2 : (analyzeLine line).2 = true := hp.1
          have hpne : (analyzeLine line).1 ≠ [] := by
            have h2 := hp.2
            simpa using h2
          rw [crossGo_pure _ t _ _ _ hcl' hb' hp2 hpne] at hv
          apply ih (i + 1) _ _ hdrop' (by omega) ?_ v hv
          rcases hinv with ⟨rfl, rfl⟩ | ⟨s, rfl, hsi, hslen, hclaim, hcw⟩
          · right
            refine ⟨i, by simp, by omega, hilen, ?_, ?_⟩
            · intro j h1 h2
              have hji : j = i := by omega
              subst hji; exact hcl'
            · have hi2 : (i + 1) - 1 = i := by omega
              rw [hi2, runWords_self, hgetD]
              simp
          · right
            have hcast : ((s : Int)) ≠ -1 := by omega
            refine ⟨s, by simp [hcast], by omega, hslen, ?_, ?_⟩
            · intro j h1 h2
              by_cases hj : j < i
              · exact hclaim j h1 hj
              · have hji : j = i := by omega
                subst hji; exact hcl'
            · have hi1 : i - 1 + 1 = i := by omega
              have hext := @runWords_extend lines s (i - 1) (by omega)
              rw [hi1, hgetD] at hext
              have hi2 : (i + 1) - 1 = i := by omega
              rw [hi2, hext, hcw]
        · have hp' : ((analyzeLine line).2 && !(analyzeLine line).1.isEmpty) = false := by
            revert hp
            cases hx : ((analyzeLine line).2 && !(analyzeLine line).1.isEmpty) <;> simp
          rw [crossGo_flush _ t _ _ _ hcl' hb' hp'] at hv
          rcases List.mem_append.mp hv with hv1 | hv2
          · obtain ⟨hge, rfl⟩ := flush_cases hv1
            rcases hinv with ⟨rfl, rfl⟩ | ⟨s, rfl, hsi, hslen, hclaim, hcw⟩
            · left
              refine ⟨by simpa using hge, ?_⟩
              norm_num [lineAt_neg_one]
            · right
              refine ⟨s, i - 1, by omega, by omega, rfl, lineAt_nat lines s,
                ?_, hcw⟩
              intro j h1 h2
              exact hclaim j h1 (by omega)
          · exact ih (i + 1) [] (-1) hdrop' (by omega) (Or.inl ⟨rfl, rfl⟩) v hv2

/-- A line index is in `reportedLines` iff that line produced at least one
single-line violation. -/
theorem pass1Go_reported (t : Int) (lines : List (List Char)) :
    ∀ (rest : List (List Char)) (i0 : Nat), lines.drop i0 = rest →
      ∀ i, (pass1Go t i0 rest).2.contains i = true ↔
        (i0 ≤ i ∧ i < lines.length ∧ scanLine t i (lines.getD i []) ≠ []) := by
  intro rest
  induction rest with
  | nil =>
    intro i0 hdrop i
    constructor
    · intro h
      exact absurd h (by simp [pass1Go])
    · rintro ⟨h1, h2, _⟩
      have := List.drop_eq_nil_iff.mp hdrop
      omega
  | cons line rest' ih =>
    intro i0 hdrop i
    obtain ⟨hilen, hgetD, hdrop'⟩ := drop_cons hdrop
    rw [pass1Go_cons]
    constructor
    · intro h
      have hmem : i ∈ (if scanLine t i0 line = [] then [] else [i0]) ++
          (pass1Go t (i0 + 1) rest').2 := by simpa using h
      rcases List.mem_append.mp hmem with h1 | h2
      · by_cases hs : scanLine t i0 line = []
        · rw [if_pos hs] at h1
          exact absurd h1 (by simp)
        · rw [if_neg hs] at h1
          simp only [List.mem_singleton] at h1
          subst h1
          refine ⟨le_refl _, hilen, ?_⟩
          rw [hgetD]
          exact hs
      · have hr := (ih (i0 + 1) hdrop' i).mp (by simpa using h2)
        exact ⟨by omega, hr.2.1, hr.2.2⟩
    · rintro ⟨h1, h2, h3⟩
      have hgoal : i ∈ (if scanLine t i0 line = [] then [] else [i0]) ++
          (pass1Go t (i0 + 1) rest').2 → ((if scanLine t i0 line = [] then []
            else [i0]) ++ (pass1Go t (i0 + 1) rest').2).contains i = true := by
        intro hm; simpa using hm
      apply hgoal
      rw [List.mem_append]
      by_cases hi : i = i0
      · subst hi
        left
        rw [hgetD] at h3
        rw [if_neg h3]
        simp
      · right
        have hm := (ih (i0 + 1) hdrop' i).mpr ⟨by omega, h2, h3⟩
        simpa using hm

/-- Claim C3: a line is in the claimed set iff the single-line pass produced
at least one violation on it, and every cross-line violation (bar the
degenerate empty flush possible only at threshold <= 0) covers a contiguous
interval of lines none of which is claimed, drawing its `matchedWords`
exclusively from that interval — so no vocabulary word on a claimed line
appears in a cross-line violation and no cross-line run spans a claimed
line. -/
theorem claimed_line_isolation (content : List Char) (t : Int) :
    (∀ i, (pass1Go t 0 (splitLines content)).2.contains i = true ↔
      (i < (splitLines content).length ∧
        scanLine t i ((splitLines content).getD i []) ≠ [])) ∧
    (∀ v ∈ scanCrossLine (splitLines content)
        (pass1Go t 0 (splitLines content)).2 t,
      (t ≤ 0 ∧ v = ⟨0, [], []⟩) ∨
      (∃ s e : Nat, s ≤ e ∧ e < (splitLines content).length ∧
        v.lineNumber = (s : Int) + 1 ∧
        v.line = (splitLines content).getD s [] ∧
        (∀ j, s ≤ j → j ≤ e →
          (pass1Go t 0 (splitLines content)).2.contains j = false) ∧
        v.matchedWords = runWords (splitLines content) s e)) := by
  constructor
  · intro i
    have h := pass1Go_reported t (splitLines content) (splitLines content) 0
      rfl i
    simpa using h
  · intro v hv
    exact crossGo_decomp (splitLines content)
      (pass1Go t 0 (splitLines content)).2 t (splitLines content) 0 [] (-1)
      rfl (Nat.zero_le _) (Or.inl ⟨rfl, rfl⟩) v hv

def exC3 : List Char := ("abandon ability able about above\nzoo\nzone").data

/-- Witness for `claimed_line_isolation`: at threshold 2 the first line of
`exC3` produces a single-line violation and is claimed. -/
theorem claimed_line_isolation_witness :
    (pass1Go 2 0 (splitLines exC3)).2.contains 0 = true :=
  ((claimed_line_isolation exC3 2).1 0).mpr ⟨by decide, by decide⟩

/-- Taking `slice(-c)` yields a subset of the buffer. -/
theorem sliceNeg_subset {l : List (List Char)} {c : Nat} :
    ∀ x ∈ sliceNeg l c, x ∈ l := by
  intro x hx
  unfold sliceNeg at hx
  split at hx
  · exact hx
  · exact List.drop_subset _ l hx

/-- Shape invariant for the break helper of the single-line loop. -/
theorem breakRun_shape {t : Int} {i : Nat} {line : List Char}
    {acc : ScanState × List Violation}
    (h1 : ∀ w ∈ acc.1.matched, BIP39_WORDS.contains w = true)
    (h2 : ∀ v ∈ acc.2, v.lineNumber = (i : Int) + 1 ∧ v.line = line ∧
      ∀ w ∈ v.matchedWords, BIP39_WORDS.contains w = true) :
    (∀ w ∈ (breakRun t i line acc).1.matched,
      BIP39_WORDS.contains w = true) ∧
    (∀ v ∈ (breakRun t i line acc).2, v.lineNumber = (i : Int) + 1 ∧
      v.line = line ∧ ∀ w ∈ v.matchedWords,
        BIP39_WORDS.contains w = true) := by
  unfold breakRun
  split
  · refine ⟨by simp, ?_⟩
    intro v hv
    rcases List.mem_append.mp hv with hv1 | hv2
    · exact h2 v hv1
    · simp only [List.mem_singleton] at hv2
      subst hv2
      exact ⟨rfl, rfl, fun w hw => h1 w (sliceNeg_subset w hw)⟩
  · exact ⟨by simp, h2⟩

/-- Shape invariant for one token of the single-line loop. -/
theorem scanStep_shape {t : Int} {i : Nat} {line tok : List Char}
    {acc : ScanState × List Violation}
    (h1 : ∀ w ∈ acc.1.matched, BIP39_WORDS.contains w = true)
    (h2 : ∀ v ∈ acc.2, v.lineNumber = (i : Int) + 1 ∧ v.line = line ∧
      ∀ w ∈ v.matchedWords, BIP39_WORDS.contains w = true) :
    (∀ w ∈ (scanStep t i line acc tok).1.matched,
      BIP39_WORDS.contains w = true) ∧
    (∀ v ∈ (scanStep t i line acc tok).2, v.lineNumber = (i : Int) + 1 ∧
      v.line = line ∧ ∀ w ∈ v.matchedWords,
        BIP39_WORDS.contains w = true) := by
  unfold scanStep
  split
  · exact ⟨h1, h2⟩
  · split
    · exact ⟨h1, h2⟩
    · split
      · refine ⟨?_, h2⟩
        intro w hw
        simp only [List.mem_append, List.mem_singleton] at hw
        rcases hw with hw | rfl
        · exact h1 w hw
        · assumption
      · exact breakRun_shape h1 h2
  · exact breakRun_shape h1 h2

/-- Shape invariant for the whole token loop. -/
theorem foldl_scanStep_shape (t : Int) (i : Nat) (line : List Char)
    (toks : List (List Char)) :
    ∀ acc : ScanState × List Violation,
      (∀ w ∈ acc.1.matched, BIP39_WORDS.contains w = true) →
      (∀ v ∈ acc.2, v.lineNumber = (i : Int) + 1 ∧ v.line = line ∧
        ∀ w ∈ v.matchedWords, BIP39_WORDS.contains w = true) →
      (∀ w ∈ (toks.foldl (scanStep t i line) acc).1.matched,
        BIP39_WORDS.contains w = true) ∧
      (∀ v ∈ (toks.foldl (scanStep t i line) acc).2,
        v.lineNumber = (i : Int) + 1 ∧ v.line = line ∧
        ∀ w ∈ v.matchedWords, BIP39_WORDS.contains w = true) := by
  induction toks with
  | nil => intro acc h1 h2; exact ⟨h1, h2⟩
  | cons tok rest ih =>
    intro acc h1 h2
    rw [List.foldl_cons]
    have hstep := @scanStep_shape t i line tok acc h1 h2
    exact ih _ hstep.1 hstep.2

/-- Every single-line violation points at its own line, carries its text,
and matches only vocabulary members. -/
theorem scanLine_shape (t : Int) (i : Nat) (line : List Char) :
    ∀ v ∈ scanLine t i line, v.lineNumber = (i : Int) + 1 ∧ v.line = line ∧
      ∀ w ∈ v.matchedWords, BIP39_WORDS.contains w = true := by
  intro v hv
  simp only [scanLine] at hv
  have hfold := foldl_scanStep_shape t i line (tokensOfLine line)
    (⟨0, []⟩, []) (by simp) (by simp)
  split at hv
  · rcases List.mem_append.mp hv with hv1 | hv2
    · exact hfold.2 v hv1
    · simp only [List.mem_singleton] at hv2
      subst hv2
      exact ⟨rfl, rfl, fun w hw => hfold.1 w (sliceNeg_subset w hw)⟩
  · exact hfold.2 v hv

/-- Shape of Pass 1's violations relative to the full line array: each one
is a violation of the scan of its own line `j` (so its `lineNumber` points
at the line holding its entire run). -/
theorem pass1Go_shape (t : Int) (lines : List (List Char)) :
    ∀ (rest : List (List Char)) (i0 : Nat), lines.drop i0 = rest →
      ∀ v ∈ (pass1Go t i0 rest).1, ∃ j : Nat, i0 ≤ j ∧ j < lines.length ∧
        v.lineNumber = (j : Int) + 1 ∧ v.line = lines.getD j [] ∧
        v ∈ scanLine t j (lines.getD j []) ∧
        ∀ w ∈ v.matchedWords, BIP39_WORDS.contains w = true := by
  intro rest
  induction rest with
  | nil =>
    intro i0 hdrop v hv
    exact absurd hv (by simp [pass1Go])
  | cons line rest' ih =>
    intro i0 hdrop v hv
    obtain ⟨hilen, hgetD, hdrop'⟩ := drop_cons hdrop
    rw [pass1Go_cons] at hv
    rcases List.mem_append.mp hv with hv1 | hv2
    · have hs := scanLine_shape t i0 line v hv1
      exact ⟨i0, le_refl _, hilen, hs.1, by rw [hgetD]; exact hs.2.1,
        by rw [hgetD]; exact hv1, hs.2.2⟩
    · obtain ⟨j, hj1, hj2, hj3, hj4, hj5, hj6⟩ := ih (i0 + 1) hdrop' v hv2
      exact ⟨j, by omega, hj2, hj3, hj4, hj5, hj6⟩

/-- Claim C8 (amended): for threshold >= 1, the vocabulary has 2048 entries
and every violation's `lineNumber` is `j + 1` for a valid line index `j`
pointing at the first line of its run — the violation either belongs to the
single-line scan of line `j` itself (its run lies entirely on line `j`), or
its `matchedWords` are exactly the words accumulated over a cross-line run
of lines starting at line `j` — with the `line` field the literal text of
line `j` and `matchedWords` consisting only of lowercase vocabulary
members.  (The amendment restricts the claim to thresholds >= 1: at
threshold <= 0 the code emits degenerate violations with
`lineNumber = 0`.) -/
theorem violation_shape (content : List Char) (t : Int) (ht : 1 ≤ t) :
    BIP39_WORDS.length = 2048 ∧
    ∀ v ∈ detectBip39Sequences content t,
      (∃ j : Nat, v.lineNumber = (j : Int) + 1 ∧
        j < (splitLines content).length ∧
        v.line = (splitLines content).getD j [] ∧
        (v ∈ scanLine t j ((splitLines content).getD j []) ∨
          ∃ e : Nat, j ≤ e ∧ e < (splitLines content).length ∧
            v.matchedWords = runWords (splitLines content) j e)) ∧
      (∀ w ∈ v.matchedWords, BIP39_WORDS.contains w = true ∧
        w.all isLowerAlpha = true) := by
  refine ⟨vocab_length, ?_⟩
  intro v hv
  by_cases hc : content = []
  · rw [hc] at hv
    exact absurd hv (by simp [detectBip39Sequences])
  · simp only [detectBip39Sequences, if_neg hc] at hv
    rcases List.mem_append.mp hv with hv1 | hv2
    · obtain ⟨j, _, hj2, hj3, hj4, hj5, hj6⟩ :=
        pass1Go_shape t (splitLines content) (splitLines content) 0 rfl v hv1
      refine ⟨⟨j, hj3, hj2, hj4, Or.inl hj5⟩, ?_⟩
      intro w hw
      exact ⟨hj6 w hw, (vocab_member_wf (hj6 w hw)).2⟩
    · have hd := crossGo_decomp (splitLines content)
        (pass1Go t 0 (splitLines content)).2 t (splitLines content) 0 [] (-1)
        rfl (Nat.zero_le _) (Or.inl ⟨rfl, rfl⟩) v hv2
      rcases hd with ⟨ht0, _⟩ | ⟨s, e, hse, helen, hln, hline, _, hwords⟩
      · omega
      · refine ⟨⟨s, hln, by omega, hline,
          Or.inr ⟨e, hse, helen, hwords⟩⟩, ?_⟩
        intro w hw
        rw [hwords] at hw
        have hwv := runWords_vocab (splitLines content) s e w hw
        exact ⟨hwv, (vocab_member_wf hwv).2⟩

/-- Claim C8 counterexample: at threshold 0 (an integer threshold the claim
quantifies over) `detect("x", 0)` emits violations with `lineNumber = 0`. -/
theorem violation_shape_cex :
    ¬ (∀ v ∈ detectBip39Sequences (("x").data) 0, 1 ≤ v.lineNumber) := by
  decide

def exC8 : List Char := ("abandon ability able about above").data

/-- Witness for `violation_shape` at threshold 5 on a five-word line: the
single violation produced there has the claimed shape, its line number
pointing at the line holding its run. -/
theorem violation_shape_witness :
    (∃ j : Nat,
      (⟨1, [("abandon").data, ("ability").data, ("able").data,
        ("about").data, ("above").data], exC8⟩ : Violation).lineNumber =
          (j : Int) + 1 ∧
      j < (splitLines exC8).length ∧
      (⟨1, [("abandon").data, ("ability").data, ("able").data,
        ("about").data, ("above").data], exC8⟩ : Violation).line =
          (splitLines exC8).getD j [] ∧
      ((⟨1, [("abandon").data, ("ability").data, ("able").data,
        ("about").data, ("above").data], exC8⟩ : Violation) ∈
          scanLine 5 j ((splitLines exC8).getD j []) ∨
        ∃ e : Nat, j ≤ e ∧ e < (splitLines exC8).length ∧
          (⟨1, [("abandon").data, ("ability").data, ("able").data,
            ("about").data, ("above").data], exC8⟩ : Violation).matchedWords =
              runWords (splitLines exC8) j e)) ∧
    (∀ w ∈ (⟨1, [("abandon").data, ("ability").data, ("able").data,
        ("about").data, ("above").data], exC8⟩ : Violation).matchedWords,
      BIP39_WORDS.contains w = true ∧ w.all isLowerAlpha = true) :=
  (violation_shape exC8 5 (by decide)).2
    ⟨1, [("abandon").data, ("ability").data, ("able").data,
      ("about").data, ("above").data], exC8⟩ (by decide)

/-- Non-decreasing `lineNumber` order. -/
def sortedByLine (l : List Violation) : Prop :=
  l.Pairwise (fun a b => a.lineNumber ≤ b.lineNumber)

/-- A list of violations sharing one line number is sorted. -/
theorem sorted_of_const {L : List Violation} {c : Int}
    (h : ∀ v ∈ L, v.lineNumber = c) : sortedByLine L := by
  induction L with
  | nil => exact List.Pairwise.nil
  | cons v rest ih =>
    refine List.Pairwise.cons ?_ (ih (fun v2 h2 => h v2 (by simp [h2])))
    intro v2 h2
    rw [h v (by simp), h v2 (by simp [h2])]

/-- Pass 1 emits nothing below line `i0 + 1`. -/
theorem pass1Go_lineNumber_lb (t : Int) :
    ∀ (rest : List (List Char)) (i0 : Nat),
      ∀ v ∈ (pass1Go t i0 rest).1, (i0 : Int) + 1 ≤ v.lineNumber := by
  intro rest
  induction rest with
  | nil =>
    intro i0 v hv
    exact absurd hv (by simp [pass1Go])
  | cons line rest' ih =>
    intro i0 v hv
    rw [pass1Go_cons] at hv
    rcases List.mem_append.mp hv with hv1 | hv2
    · rw [(scanLine_shape t i0 line v hv1).1]
    · have := ih (i0 + 1) v hv2
      omega

/-- Pass 1's violation list is sorted by line number. -/
theorem pass1Go_sorted (t : Int) :
    ∀ (rest : List (List Char)) (i0 : Nat),
      sortedByLine (pass1Go t i0 rest).1 := by
  intro rest
  induction rest with
  | nil => intro i0; exact List.Pairwise.nil
  | cons line rest' ih =>
    intro i0
    rw [pass1Go_cons]
    rw [sortedByLine, List.pairwise_append]
    refine ⟨sorted_of_const (fun v hv => (scanLine_shape t i0 line v hv).1),
      ih (i0 + 1), ?_⟩
    intro a ha b hb
    rw [(scanLine_shape t i0 line a ha).1]
    have := pass1Go_lineNumber_lb t rest' (i0 + 1) b hb
    omega

/-- Appending a flush (at threshold >= 1, with a genuine run start) to a
sorted suffix of larger line numbers stays sorted. -/
theorem flush_append_sorted {lines : List (List Char)} {t : Int}
    {cw : List (List Char)} {cs b : Int} {rec : List Violation}
    (ht : 1 ≤ t) (hrs : sortedByLine rec)
    (hrb : ∀ v ∈ rec, b ≤ v.lineNumber) (hbv : cs + 2 ≤ b) :
    sortedByLine (flushCrossLine lines t cw cs ++ rec) ∧
    ∀ v ∈ flushCrossLine lines t cw cs ++ rec, cs + 1 ≤ v.lineNumber := by
  unfold flushCrossLine
  split
  · rw [List.singleton_append]
    constructor
    · refine List.Pairwise.cons ?_ hrs
      intro v2 h2
      have := hrb v2 h2
      simp only []
      omega
    · intro v hv
      rcases List.mem_cons.mp hv with rfl | hv2
      · simp
      · have := hrb v hv2
        omega
  · rw [List.nil_append]
    refine ⟨hrs, ?_⟩
    intro v hv
    have := hrb v hv
    omega

/-- For threshold >= 1 the cross-line loop's output is sorted by line
number, all of it at or above the current run start (or current index). -/
theorem crossGo_sorted (lines : List (List Char)) (claimed : List Nat)
    (t : Int) (ht : 1 ≤ t) :
    ∀ (rest : List (List Char)) (i : Nat) (cw : List (List Char)) (cs : Int),
      (cs = -1 ∨ (0 ≤ cs ∧ cs < (i : Int))) → (cw ≠ [] → cs ≠ -1) →
      sortedByLine (crossGo lines claimed t i rest cw cs) ∧
      ∀ v ∈ crossGo lines claimed t i rest cw cs,
        (if cs = -1 then (i : Int) else cs) + 1 ≤ v.lineNumber := by
  intro rest
  induction rest with
  | nil =>
    intro i cw cs hcs hcw
    rw [crossGo_nil]
    constructor
    · unfold flushCrossLine
      split
      · exact List.pairwise_singleton _ _
      · exact List.Pairwise.nil
    · intro v hv
      obtain ⟨hge, rfl⟩ := flush_cases hv
      have hne : cw ≠ [] := by
        intro h0
        rw [h0] at hge
        simp at hge
        omega
      have := hcw hne
      rcases hcs with rfl | ⟨h1, h2⟩
      · exact absurd rfl this
      · rw [if_neg (by omega)]
  | cons line rest' ih =>
    intro i cw cs hcs hcw
    have hrec := ih (i + 1) [] (-1) (Or.inl rfl) (fun h => absurd rfl h)
    have hrecb : ∀ v ∈ crossGo lines claimed t (i + 1) rest' [] (-1),
        (i : Int) + 2 ≤ v.lineNumber := by
      intro v hv
      have := hrec.2 v hv
      rw [if_pos rfl] at this
      omega
    by_cases hcl : claimed.contains i = true
    · rw [crossGo_claimed _ t _ _ _ _ hcl]
      rcases hcs with rfl | ⟨h1, h2⟩
      · have hcw0 : cw = [] := by
          by_contra hne
          exact absurd rfl (hcw hne)
        subst hcw0
        rw [flush_nil ht, List.nil_append]
        refine ⟨hrec.1, ?_⟩
        intro v hv
        have := hrecb v hv
        rw [if_pos rfl]
        omega
      · have hfa := @flush_append_sorted lines t cw cs ((i : Int) + 2) _ ht
          hrec.1 hrecb (by omega)
        refine ⟨hfa.1, ?_⟩
        intro v hv
        have := hfa.2 v hv
        rw [if_neg (by omega)]
        omega
    · have hcl' : claimed.contains i = false := by
        revert hcl; cases claimed.contains i <;> simp
      by_cases hb : line.all isWs = true
      · rw [crossGo_blank _ t _ _ _ hcl' hb]
        have hih := ih (i + 1) cw cs ?_ hcw
        · refine ⟨hih.1, ?_⟩
          intro v hv
          have := hih.2 v hv
          rcases hcs with rfl | ⟨h1, h2⟩
          · rw [if_pos rfl] at this ⊢
            omega
          · rw [if_neg (by omega)] at this ⊢
            omega
        · rcases hcs with rfl | ⟨h1, h2⟩
          · exact Or.inl rfl
          · exact Or.inr ⟨h1, by omega⟩
      · have hb' : line.all isWs = false := by
          revert hb; cases line.all isWs <;> simp
        by_cases hp : ((analyzeLine line).2 && !(analyzeLine line).1.isEmpty) = true
        · rw [Bool.and_eq_true] at hp
          have hp2 := hp.1
          have hpne : (analyzeLine line).1 ≠ [] := by
            have h2 := hp.2
            simpa using h2
          rw [crossGo_pure _ t _ _ _ hcl' hb' hp2 hpne]
          rcases hcs with rfl | ⟨h1, h2⟩
          · rw [if_pos rfl]
            have hih := ih (i + 1) (cw ++ (analyzeLine line).1) (i : Int)
              (Or.inr ⟨by omega, by omega⟩) (fun _ => by omega)
            refine ⟨hih.1, ?_⟩
            intro v hv
            have := hih.2 v hv
            rw [if_neg (by omega)] at this
            exact this
          · rw [if_neg (by omega)]
            have hih := ih (i + 1) (cw ++ (analyzeLine line).1) cs
              (Or.inr ⟨h1, by omega⟩) (fun _ => by omega)
            refine ⟨hih.1, ?_⟩
            intro v hv
            have := hih.2 v hv
            rw [if_neg (by omega)] at this
            exact this
        · have hp' : ((analyzeLine line).2 && !(analyzeLine line).1.isEmpty) = false := by
            revert hp
            cases hx : ((analyzeLine line).2 && !(analyzeLine line).1.isEmpty) <;> simp
          rw [crossGo_flush _ t _ _ _ hcl' hb' hp']
          rcases hcs with rfl | ⟨h1, h2⟩
          · have hcw0 : cw = [] := by
              by_contra hne
              exact absurd rfl (hcw hne)
            subst hcw0
            rw [flush_nil ht, List.nil_append]
            refine ⟨hrec.1, ?_⟩
            intro v hv
            have := hrecb v hv
            rw [if_pos rfl]
            omega
          · have hfa := @flush_append_sorted lines t cw cs ((i : Int) + 2) _
              ht hrec.1 hrecb (by omega)
            refine ⟨hfa.1, ?_⟩
            intro v hv
            have := hfa.2 v hv
            rw [if_neg (by omega)]
            omega

/-- With a non-positive threshold, every line's end-of-line check fires, so
every line produces at least one single-line violation. -/
theorem scanLine_nonpos {t : Int} (ht : t ≤ 0) (i : Nat) (line : List Char) :
    scanLine t i line ≠ [] := by
  simp only [scanLine]
  split
  · simp
  · rename_i hlt
    exfalso
    apply hlt
    have hn : (0 : Int) ≤ ((tokensOfLine line).foldl
        (scanStep t i line) (⟨0, []⟩, [])).1.consecutive := Int.natCast_nonneg _
    omega

/-- With a non-positive threshold every line index is claimed. -/
theorem pass1_claims_all {t : Int} (ht : t ≤ 0) (lines : List (List Char)) :
    ∀ j, j < lines.length → (pass1Go t 0 lines).2.contains j = true := by
  intro j hj
  exact (pass1Go_reported t lines lines 0 rfl j).mpr
    ⟨Nat.zero_le _, hj, scanLine_nonpos ht j _⟩

/-- If every line is claimed, the cross-line loop never opens a run and all
its (degenerate) violations have `lineNumber = 0`. -/
theorem crossGo_all_claimed (lines : List (List Char)) (claimed : List Nat)
    (t : Int) :
    ∀ (rest : List (List Char)) (i : Nat), lines.drop i = rest →
      (∀ j, j < lines.length → claimed.contains j = true) →
      ∀ v ∈ crossGo lines claimed t i rest [] (-1), v.lineNumber = 0 := by
  intro rest
  induction rest with
  | nil =>
    intro i hdrop hall v hv
    rw [crossGo_nil] at hv
    obtain ⟨_, rfl⟩ := flush_cases hv
    norm_num
  | cons line rest' ih =>
    intro i hdrop hall v hv
    obtain ⟨hilen, _, hdrop'⟩ := drop_cons hdrop
    rw [crossGo_claimed _ t _ _ _ _ (hall i hilen)] at hv
    rcases List.mem_append.mp hv with hv1 | hv2
    · obtain ⟨_, rfl⟩ := flush_cases hv1
      norm_num
    · exact ih (i + 1) hdrop' hall v hv2

def exC9 : List Char :=
  ("abandon\nability\nable\nabout\nabove\nzoo zone zero youth young").data

/-- Claim C9: `detect` returns the single-line pass's violations followed by
the cross-line pass's, each sublist individually sorted by line number (for
any integer threshold), and no global re-sort merges them — on `exC9` the
cross-line violation for line 1 appears after the single-line violation for
line 6. -/
theorem two_pass_order (content : List Char) (t : Int) :
    (content ≠ [] → detectBip39Sequences content t =
      (pass1Go t 0 (splitLines content)).1 ++
        scanCrossLine (splitLines content)
          (pass1Go t 0 (splitLines content)).2 t) ∧
    sortedByLine (pass1Go t 0 (splitLines content)).1 ∧
    sortedByLine (scanCrossLine (splitLines content)
      (pass1Go t 0 (splitLines content)).2 t) ∧
    detectBip39Sequences exC9 5 =
      [⟨6, [("zoo").data, ("zone").data, ("zero").data, ("youth").data,
        ("young").data], ("zoo zone zero youth young").data⟩,
       ⟨1, [("abandon").data, ("ability").data, ("able").data,
        ("about").data, ("above").data], ("abandon").data⟩] := by
  refine ⟨fun hc => by simp only [detectBip39Sequences, if_neg hc],
    pass1Go_sorted t _ 0, ?_, by decide⟩
  rcases le_or_lt 1 t with ht | ht
  · exact (crossGo_sorted (splitLines content)
      (pass1Go t 0 (splitLines content)).2 t ht (splitLines content) 0 []
      (-1) (Or.inl rfl) (fun h => absurd rfl h)).1
  · have ht' : t ≤ 0 := by omega
    exact sorted_of_const (crossGo_all_claimed (splitLines content)
      (pass1Go t 0 (splitLines content)).2 t (splitLines content) 0 rfl
      (pass1_claims_all ht' (splitLines content)))

/-- Witness for `two_pass_order`: on `exC9` the returned list is exactly the
Pass 1 list followed by the Pass 2 list. -/
theorem two_pass_order_witness :
    detectBip39Sequences exC9 5 =
      (pass1Go 5 0 (splitLines exC9)).1 ++
        scanCrossLine (splitLines exC9) (pass1Go 5 0 (splitLines exC9)).2 5 :=
  (two_pass_order exC9 5).1 (by decide)
